import Mathlib

/-!
Verification of the constraint-satisfaction engine (`src/lib.rs`).

The Rust code is shallowly embedded: `i32` values (the `Universe` type)
become `Int` (the engine performs no value arithmetic, so no overflow
semantics are lost), a `Variable` becomes its dense index as a `Nat`,
`Vec` becomes `List`, `HashMap<Vec<Variable>, Evaluation>` becomes an
association list with unique keys, `HashSet<usize>` becomes `Finset Nat`,
and opaque predicates (`Evaluation`) become Lean functions
`List Int → Bool` taking the values in scope order.  Operations that can
panic in Rust (out-of-range indexing, `unwrap`) return `Option`, with
`none` marking the panic.  Loops whose termination is not structural carry
an explicit fuel argument; exhausted fuel is an outer `none`, distinct
from a panic.
-/

namespace Constraint

/-- A constraint scope: the list of variable ids, a variable being its
dense index (Rust `Variable { id: usize }`, `Vec<Variable>`). -/
abbrev Scope := List Nat

/-- Opaque predicate over the values of the scope, in scope order
(Rust `Evaluation`). -/
abbrev Evaluation := List Int → Bool

/-- Rust `Candidate = Vec<Option<Universe>>`. -/
abbrev Candidate := List (Option Int)

/-- Rust `struct Constraint { scope, evaluate }`. -/
structure Cstr where
  scope : Scope
  evaluate : Evaluation

/-- Rust `struct Domain { of, values }`. -/
structure Domain where
  of : Nat
  values : List Int

/-- Rust `struct RawProblem`.  (The Rust field `variables` is called
`vars` here because `variables` is a reserved word in Lean 4.) -/
structure RawProblem where
  vars : List Nat
  domains : List Domain
  constraints : List Cstr

/-- Rust `RawProblem::new`. -/
def RawProblem.new : RawProblem := ⟨[], [], []⟩

/-- Rust `RawProblem::add_var`: appends a fresh variable together with its
initial domain and returns the variable. -/
def RawProblem.add_var (r : RawProblem) (domain : List Int) :
    RawProblem × Nat :=
  let v := r.vars.length
  ({ vars := r.vars ++ [v]
     domains := r.domains ++ [⟨v, domain⟩]
     constraints := r.constraints }, v)

/-- Rust `slice::is_sorted_by_key(|v| v.id)`: non-strict adjacent
ordering (equal neighbours are accepted). -/
def isSortedByKey : List Nat → Bool
  | [] => true
  | [_] => true
  | a :: b :: t => a ≤ b && isSortedByKey (b :: t)

/-- Rust `RawProblem::add_constraint`.  The `assert!` aborts (here:
`none`) exactly when `is_sorted_by_key` fails; otherwise the constraint
is pushed. -/
def RawProblem.add_constraint (r : RawProblem) (scope : Scope)
    (evaluation : Evaluation) : Option RawProblem :=
  if isSortedByKey scope then
    some { r with constraints := r.constraints ++ [⟨scope, evaluation⟩] }
  else
    none

theorem isSortedByKey_iff_chain (l : List Nat) :
    isSortedByKey l = true ↔ l.Chain' (· ≤ ·) := by
  induction l with
  | nil => simp [isSortedByKey]
  | cons a t ih =>
    cases t with
    | nil => simp [isSortedByKey]
    | cons b t' =>
      simp only [isSortedByKey, Bool.and_eq_true, decide_eq_true_eq,
        List.chain'_cons] at *
      exact and_congr Iff.rfl ih

end Constraint

namespace Constraint

/-- In-place update `l[i] := f l[i]` (Rust mutable indexing inside the
propagation loops; out of range leaves the list unchanged, a case the
theorems exclude through well-formedness hypotheses). -/
def modifyIdx : List α → Nat → (α → α) → List α
  | [], _, _ => []
  | a :: t, 0, f => f a :: t
  | a :: t, i + 1, f => a :: modifyIdx t i f

/-- Rust assignment `l[i] = v` with the out-of-range panic made explicit. -/
def setIdx? (l : List α) (i : Nat) (v : α) : Option (List α) :=
  if i < l.length then some (l.set i v) else none

/-- Rust `struct NormalizedProblem`: the `HashMap<Vec<Nat>, Evaluation>`
is embedded as an association list with unique scope keys. -/
structure NormalizedProblem where
  vars : List Nat
  domains : List Domain
  constraints : List (Scope × Evaluation)

/-- Rust `HashMap::get` on the scope-keyed constraint map. -/
def lookupScope (m : List (Scope × Evaluation)) (s : Scope) : Option Evaluation :=
  (m.find? (fun p => p.1 == s)).map (·.2)

/-- Rust `HashMap::remove` on the scope-keyed constraint map. -/
def eraseScope (m : List (Scope × Evaluation)) (s : Scope) :
    List (Scope × Evaluation) :=
  m.eraseP (fun p => p.1 == s)

/-- One constraint of `RawProblem::normalize_problem`'s folding loop:
a repeated scope replaces the stored predicate by the conjunction. -/
def normStep (m : List (Scope × Evaluation)) (c : Cstr) :
    List (Scope × Evaluation) :=
  match lookupScope m c.scope with
  | some curr => eraseScope m c.scope ++ [(c.scope, fun u => curr u && c.evaluate u)]
  | none => m ++ [(c.scope, c.evaluate)]

/-- Rust `RawProblem::normalize_problem`. -/
def RawProblem.normalize_problem (r : RawProblem) : NormalizedProblem :=
  { vars := r.vars
    domains := r.domains
    constraints := r.constraints.foldl normStep [] }

/-- Values of `self.domains[i]` (empty when out of range; theorems about
the propagation pipeline carry length hypotheses making this exact). -/
def dvals (st : NormalizedProblem) (i : Nat) : List Int :=
  ((st.domains.get? i).map (fun d => d.values)).getD []

/-- One index step of `NormalizedProblem::make_node_consistency`. -/
def nodeStep (st : NormalizedProblem) (i : Nat) : NormalizedProblem :=
  let var := st.vars.getD i 0
  match lookupScope st.constraints [var] with
  | some eval =>
      { st with
        domains := modifyIdx st.domains i
          (fun d => { d with values := d.values.filter (fun vx => eval [vx]) })
        constraints := eraseScope st.constraints [var] }
  | none => st

/-- Rust `NormalizedProblem::make_node_consistency`. -/
def makeNodeConsistency (st : NormalizedProblem) : NormalizedProblem :=
  (List.range st.vars.length).foldl nodeStep st

/-- The `vars_cartesian_product` vector of `make_arc_consistency`. -/
def cartesianPairs (vs : List Nat) : List (Nat × Nat) :=
  vs.flatMap (fun v1 => vs.map (fun v2 => (v1, v2)))

/-- Rust `self.constraints.get(&scope).is_some()`. -/
def hasConstraint (m : List (Scope × Evaluation)) (s : Scope) : Bool :=
  (lookupScope m s).isSome

/-- The initial AC-3 worklist: ordered pairs related by a stored binary
constraint in either orientation. -/
def initialWorklist (st : NormalizedProblem) : List (Nat × Nat) :=
  (cartesianPairs st.vars).filter (fun p =>
    hasConstraint st.constraints [p.1, p.2] ||
      hasConstraint st.constraints [p.2, p.1])

/-- One `vx` iteration of `NormalizedProblem::arc_reduce`: `vx` is kept
iff some `vy` of the current domain of `y` satisfies the constraint
stored under the scope `[x, y]` exactly (a missing `[x, y]` entry makes
the test fail, as in the source). -/
def arcReduceStep (x y : Nat) (acc : NormalizedProblem × Bool)
    (vx : Int) : NormalizedProblem × Bool :=
  let st := acc.1
  if (dvals st y).any (fun vy =>
      ((lookupScope st.constraints [x, y]).map (fun e => e [vx, vy])).getD false)
  then acc
  else
    ({ st with
        domains := modifyIdx st.domains x
          (fun d => { d with values := d.values.filter (fun vxx => vxx ≠ vx) }) },
      true)

/-- Rust `NormalizedProblem::arc_reduce`: folds over a clone of the
domain of `x` taken before the loop. -/
def arcReduce (st : NormalizedProblem) (x y : Nat) :
    NormalizedProblem × Bool :=
  (dvals st x).foldl (arcReduceStep x y) (st, false)

/-- The arcs `worklist.extend(..)` appends after a non-empty prune of
`x`'s domain, exactly as the source filters them: the parenthesisation
`(z ≠ y ∧ xx = x ∧ [z,x] stored) ∨ [x,z] stored` mirrors the Rust
operator precedence of `&&` over `||`. -/
def extendArcs (st : NormalizedProblem) (x y : Nat) :
    List (Nat × Nat) :=
  (cartesianPairs st.vars).filter (fun p =>
    (decide (p.1 ≠ y) && p.2 == x && hasConstraint st.constraints [p.1, x]) ||
      hasConstraint st.constraints [x, p.1])

/-- The AC-3 worklist loop.  The `Vec` used as a stack (push/extend at
the back, pop from the back) is modelled by a list whose head is the top
of the stack, so pushing a block of arcs prepends the block reversed.
`fuel` bounds the number of iterations; `none` is exhausted fuel,
`some none` is the `return None` on an emptied domain. -/
def acLoop (st : NormalizedProblem) (stack : List (Nat × Nat)) :
    Nat → Option (Option NormalizedProblem)
  | 0 => none
  | fuel + 1 =>
    match stack with
    | [] => some (some st)
    | (x, y) :: rest =>
      let r := arcReduce st x y
      if r.2 then
        if (dvals r.1 x).isEmpty then some none
        else acLoop r.1 ((extendArcs r.1 x y).reverse ++ rest) fuel
      else acLoop r.1 rest fuel

/-- Rust `NormalizedProblem::make_arc_consistency`. -/
def makeArcConsistency (st : NormalizedProblem) (fuel : Nat) :
    Option (Option NormalizedProblem) :=
  acLoop st (initialWorklist st).reverse fuel

/-- Rust `NormalizedProblem::sort_domains` (`sort_unstable` on `i32`,
an ascending sort). -/
def sortDomains (st : NormalizedProblem) : NormalizedProblem :=
  { st with
    domains := st.domains.map
      (fun d => { d with values := d.values.insertionSort (· ≤ ·) }) }

/-- The comparator of `NormalizedProblem::sort_constraints`: walk both
scopes from the back, skip equal ids, and compare the first difference;
the scope that runs out first is smaller. -/
def cmpRev : List Nat → List Nat → Ordering
  | [], [] => .eq
  | [], _ :: _ => .lt
  | _ :: _, [] => .gt
  | a :: ta, b :: tb => if a = b then cmpRev ta tb else compare a b

/-- The comparator applied to scopes as stored (the source iterates the
scopes reversed). -/
def cmpScope (sa sb : Scope) : Ordering :=
  cmpRev sa.reverse sb.reverse

/-- Rust `NormalizedProblem::sort_constraints` (`sort_unstable_by` with
`cmpScope`).  Distinct scopes never compare `eq` under `cmpScope`, and
the map the pipeline sorts has unique scope keys, so every comparison
sort produces the same list; insertion sort is the model. -/
def sortConstraints (cs : List (Scope × Evaluation)) :
    List (Scope × Evaluation) :=
  cs.insertionSort (fun a b => cmpScope a.1 b.1 ≠ .gt)

/-- Rust `struct PropagatedProblem`. -/
structure PropagatedProblem where
  vars : List Nat
  domains : List Domain
  constraints : List (Scope × Evaluation)

/-- Rust `NormalizedProblem::constraint_propagation`.  Outer `none` is
exhausted fuel of the AC-3 loop; `some none` is `None` (unsatisfiable). -/
def NormalizedProblem.constraint_propagation (np : NormalizedProblem)
    (fuel : Nat) : Option (Option PropagatedProblem) :=
  let st := makeNodeConsistency np
  match makeArcConsistency st fuel with
  | none => none
  | some none => some none
  | some (some st1) =>
    let st2 := sortDomains st1
    some (some { vars := st2.vars, domains := st2.domains
                 constraints := sortConstraints st2.constraints })

/-- The full pipeline from a raw problem. -/
def pipeline (r : RawProblem) (fuel : Nat) : Option (Option PropagatedProblem) :=
  r.normalize_problem.constraint_propagation fuel

end Constraint

namespace Constraint

/-- Re-evaluation of one constraint's predicate against a full assignment,
reading the values of the scope's variables in scope order. -/
def evalConstraint (vals : List Int) (c : Cstr) : Bool :=
  c.evaluate (c.scope.map (fun v => vals.getD v 0))

/-- Boolean check that an assignment picks, for every variable, a value of
its initial domain. -/
def valuesInDomainsB (r : RawProblem) (vals : List Int) : Bool :=
  vals.length == r.domains.length &&
    (List.range r.domains.length).all (fun i =>
      ((r.domains.get? i).map (fun d => d.values.contains (vals.getD i 0))).getD false)

/-- Boolean check that an assignment is a solution of a raw problem:
one in-domain value per variable, and every raw constraint satisfied. -/
def isSolutionB (r : RawProblem) (vals : List Int) : Bool :=
  valuesInDomainsB r vals && r.constraints.all (evalConstraint vals)

/-- Two variables with domain `{0}` and one always-true binary constraint
over `[v0, v1]`, built through the builder API. -/
def rawC1 : RawProblem :=
  let p1 := RawProblem.new.add_var [0]
  let p2 := p1.1.add_var [0]
  (p2.1.add_constraint [p1.2, p2.2] (fun _ => true)).getD RawProblem.new

/-- C1.  The claim states that constraint propagation never prunes a value
that has a satisfying extension (no solution is ever lost).  The code
violates it: on two variables with domain `{0}` related by an always-true
binary constraint, `arc_reduce` processes the popped arc `(v1, v0)` by
looking the constraint up under the scope `[v1, v0]`, which is never a key
(scopes are stored ascending as `[v0, v1]`), so the support test fails for
every value and the whole domain of `v1` is pruned: propagation reports
unsatisfiable although `[0, 0]` is a solution of the raw problem.  The
spec is the clear intent (its section 9 flags exactly this reversed-arc
lookup as a correctness requirement); the code is the slip, so this is
recorded as a code bug, witnessed here by evaluating both facts. -/
theorem C1_arc_consistency_loses_solutions :
    pipeline rawC1 10 = some none ∧ isSolutionB rawC1 [0, 0] = true :=
  ⟨rfl, rfl⟩

/-- One variable whose initial domain is empty, no constraints. -/
def rawC4 : RawProblem := (RawProblem.new.add_var []).1

/-- C4.  The claim states that propagation returns Unsatisfiable whenever a
domain is empty during node or arc consistency, in particular for a single
variable with an empty initial domain.  The code never checks emptiness in
`make_node_consistency`, and `make_arc_consistency` checks it only after an
arc reduction reported a change, so the empty-domain problem sails through:
propagation returns a Propagated problem whose only domain is empty instead
of `None`.  The spec (sections 7 and 8) is the clear intent; the code is
the slip. -/
theorem C4_empty_domain_not_reported :
    (pipeline rawC4 10).map (Option.map (fun p => p.domains)) =
      some (some [⟨0, []⟩]) :=
  rfl

/-- C5 counterexample.  The claim says `add_constraint` aborts whenever the
scope contains duplicate variables or is empty.  The code's assertion is
`is_sorted_by_key`, which accepts equal neighbours and the empty sequence,
so both calls succeed. -/
theorem C5_counterexample_nonstrict_scopes_accepted :
    (RawProblem.new.add_constraint [0, 0] (fun _ => true)).isSome = true ∧
      (RawProblem.new.add_constraint [] (fun _ => true)).isSome = true :=
  ⟨rfl, rfl⟩

/-- C5 amended.  `add_constraint` fails exactly when the scope is not
non-strictly ascending (some adjacent pair decreases); duplicate entries
and the empty scope are accepted; every accepted call appends the
constraint unchanged at the end of the constraint list. -/
theorem C5_add_constraint_guard (r : RawProblem) (s : Scope) (e : Evaluation) :
    ((r.add_constraint s e).isSome ↔ s.Chain' (· ≤ ·)) ∧
      (∀ r', r.add_constraint s e = some r' →
        r' = { r with constraints := r.constraints ++ [⟨s, e⟩] }) := by
  constructor
  · rw [← isSortedByKey_iff_chain]
    unfold RawProblem.add_constraint
    by_cases h : isSortedByKey s = true
    · simp [h]
    · simp [h]
  · intro r' hr'
    unfold RawProblem.add_constraint at hr'
    by_cases h : isSortedByKey s = true
    · simp [h] at hr'
      exact hr'.symm
    · simp [h] at hr'

/-- Witness for C5's amended theorem at the concrete scope `[0, 1]`. -/
theorem C5_add_constraint_guard_witness :
    { RawProblem.new with constraints := [⟨[0, 1], fun _ => true⟩] } =
      { RawProblem.new with
          constraints := RawProblem.new.constraints ++ [⟨[0, 1], fun _ => true⟩] } :=
  (C5_add_constraint_guard RawProblem.new [0, 1] (fun _ => true)).2 _ rfl

/-- One variable with domain `{0, 1}` and a (duplicate-entry) constraint
over the scope `[v0, v0]` that keeps only the value `0`; the builder
accepts this scope because its assertion is non-strict. -/
def rawC6 : RawProblem :=
  let p1 := RawProblem.new.add_var [0, 1]
  (p1.1.add_constraint [p1.2, p1.2] (fun vs => vs.headD 1 == 0)).getD RawProblem.new

/-- The normalized problem of `rawC6` after node consistency, on which the
AC-3 loop pops the arc `(0, 0)` and prunes the domain to `[0]`. -/
def stC6 : NormalizedProblem :=
  (arcReduce (makeNodeConsistency rawC6.normalize_problem) 0 0).1

/-- Arc additions the claim C6 prescribes, modelled from the claim's own
words: exactly the pairs `(z, x)` with `z ≠ y` such that a binary
constraint between `z` and `x` exists in either stored orientation. -/
def specClaimedArcAdditions (st : NormalizedProblem) (x y : Nat) :
    List (Nat × Nat) :=
  (cartesianPairs st.vars).filter (fun p =>
    decide (p.1 ≠ y) && p.2 == x &&
      (hasConstraint st.constraints [p.1, x] ||
        hasConstraint st.constraints [x, p.1]))

/-- C6.  After the arc `(x, y) = (0, 0)` of `rawC6` prunes the domain to
the non-empty `[0]`, the claim (and the spec) say the re-enqueued arcs are
exactly the pairs `(z, 0)` with `z ≠ 0` carrying a constraint, i.e. no arc
at all here; the code instead re-enqueues `(0, 0)`, because the filter
`z != y && xx == x && get([z,x]).is_some() || get([x,z]).is_some()` binds
`&&` tighter than `||`, so the second disjunct ignores both `z ≠ y` and
`xx = x`.  The comment in the source says the loop implements AC-3, whose
re-enqueue set is the claimed one; the filter is the slip. -/
theorem C6_worklist_additions_differ_from_claim :
    (arcReduce (makeNodeConsistency rawC6.normalize_problem) 0 0).2 = true ∧
      dvals stC6 0 = [0] ∧
      extendArcs stC6 0 0 = [(0, 0)] ∧
      specClaimedArcAdditions stC6 0 0 = [] :=
  ⟨rfl, rfl, rfl, rfl⟩

/-- Four variables with domain `{0}` and two always-true ternary
constraints added with scopes `[0,1,3]` and then `[0,1,2]` (ternary so
that the pipeline neither consumes them as unary nor prunes via AC-3). -/
def rawC7 : RawProblem :=
  let p1 := RawProblem.new.add_var [0]
  let p2 := p1.1.add_var [0]
  let p3 := p2.1.add_var [0]
  let p4 := p3.1.add_var [0]
  let r1 := (p4.1.add_constraint [0, 1, 3] (fun _ => true)).getD RawProblem.new
  (r1.add_constraint [0, 1, 2] (fun _ => true)).getD RawProblem.new

/-- C7 counterexample.  The emitted constraint list of `rawC7`'s pipeline
is `[[0,1,2], [0,1,3]]`: the index of the last scope element increases
along the list, so the list is not ordered by descending last index as the
claim states (the comparator orders ascending). -/
theorem C7_counterexample_order_is_ascending :
    (pipeline rawC7 10).map
        (Option.map (fun p => p.constraints.map (fun c => c.1))) =
      some (some [[0, 1, 2], [0, 1, 3]]) ∧
      ¬ List.Pairwise (fun a b => cmpScope a b ≠ .lt)
          [[0, 1, 2], [0, 1, 3]] :=
  ⟨rfl, by decide⟩

end Constraint

namespace Constraint

theorem cmpRev_swap : ∀ a b : List Nat, cmpRev b a = (cmpRev a b).swap
  | [], [] => rfl
  | [], _ :: _ => rfl
  | _ :: _, [] => rfl
  | a :: ta, b :: tb => by
    simp only [cmpRev]
    by_cases h : a = b
    · subst h
      simp [cmpRev_swap ta tb]
    · have h2 : ¬ b = a := fun hh => h hh.symm
      rw [if_neg h, if_neg h2]
      rcases Nat.lt_trichotomy a b with hl | he | hg
      · rw [Nat.compare_eq_lt.2 hl, Nat.compare_eq_gt.2 hl]
        rfl
      · exact absurd he h
      · rw [Nat.compare_eq_gt.2 hg, Nat.compare_eq_lt.2 hg]
        rfl

theorem cmpRev_eq_iff : ∀ a b : List Nat, cmpRev a b = .eq ↔ a = b
  | [], [] => by simp [cmpRev]
  | [], _ :: _ => by simp [cmpRev]
  | _ :: _, [] => by simp [cmpRev]
  | a :: ta, b :: tb => by
    simp only [cmpRev]
    by_cases h : a = b
    · subst h
      simpa using cmpRev_eq_iff ta tb
    · rw [if_neg h]
      constructor
      · intro hc
        exact absurd (Nat.compare_eq_eq.1 hc) h
      · intro hc
        cases hc
        exact absurd rfl h

theorem cmpRev_lt_trans :
    ∀ a b c : List Nat, cmpRev a b = .lt → cmpRev b c = .lt → cmpRev a c = .lt
  | [], b, c => by
    intro hab hbc
    match c, b with
    | [], [] => exact hbc
    | [], _ :: _ => simp [cmpRev] at hbc
    | _ :: _, _ => simp [cmpRev]
  | _ :: _, [], _ => by
    intro hab
    simp [cmpRev] at hab
  | a :: ta, b :: tb, [] => by
    intro hab hbc
    simp [cmpRev] at hbc
  | a :: ta, b :: tb, c :: tc => by
    intro hab hbc
    simp only [cmpRev] at *
    by_cases hab1 : a = b <;> by_cases hbc1 : b = c
    · subst hab1; subst hbc1
      rw [if_pos rfl] at *
      exact cmpRev_lt_trans ta tb tc hab hbc
    · subst hab1
      rw [if_neg hbc1] at *
      exact hbc
    · subst hbc1
      rw [if_neg hab1] at *
      exact hab
    · rw [if_neg hab1] at hab
      rw [if_neg hbc1] at hbc
      have h1 : a < b := Nat.compare_eq_lt.1 hab
      have h2 : b < c := Nat.compare_eq_lt.1 hbc
      have h3 : a ≠ c := by omega
      rw [if_neg h3]
      exact Nat.compare_eq_lt.2 (by omega)

theorem cmpRev_le_iff (a b : List Nat) :
    cmpRev a b ≠ .gt ↔ cmpRev a b = .lt ∨ a = b := by
  rcases hc : cmpRev a b with _ | _ | _
  · simp
  · simpa using (cmpRev_eq_iff a b).1 hc
  · constructor
    · intro hne
      exact absurd rfl hne
    · rintro (h | h)
      · cases h
      · rw [← cmpRev_eq_iff a b] at h
        rw [h] at hc
        cases hc

theorem cmpRev_le_trans {a b c : List Nat}
    (hab : cmpRev a b ≠ .gt) (hbc : cmpRev b c ≠ .gt) : cmpRev a c ≠ .gt := by
  rw [cmpRev_le_iff] at *
  rcases hab with hab | hab <;> rcases hbc with hbc | hbc
  · exact Or.inl (cmpRev_lt_trans a b c hab hbc)
  · subst hbc
    exact Or.inl hab
  · subst hab
    exact Or.inl hbc
  · subst hab
    exact Or.inr hbc

theorem cmpRev_le_total (a b : List Nat) :
    cmpRev a b ≠ .gt ∨ cmpRev b a ≠ .gt := by
  rcases hc : cmpRev a b with _ | _ | _
  · exact Or.inl (by simp)
  · exact Or.inl (by simp)
  · refine Or.inr ?_
    rw [cmpRev_swap a b, hc]
    simp [Ordering.swap]

/-- Sortedness of the model of `sort_unstable_by` under the source's
comparator (non-`Greater` between every pair in order). -/
theorem sortConstraints_sorted (cs : List (Scope × Evaluation)) :
    List.Sorted (fun a b => cmpScope a.1 b.1 ≠ .gt) (sortConstraints cs) := by
  haveI : IsTotal (Scope × Evaluation) (fun a b => cmpScope a.1 b.1 ≠ .gt) :=
    ⟨fun a b => cmpRev_le_total a.1.reverse b.1.reverse⟩
  haveI : IsTrans (Scope × Evaluation) (fun a b => cmpScope a.1 b.1 ≠ .gt) :=
    ⟨fun _ _ _ hab hbc => cmpRev_le_trans hab hbc⟩
  exact List.sorted_insertionSort _ cs

/-- C7 amended.  The claim says the emitted constraint list is ordered by
descending index of the last scope element; the code orders it ascending
(`sort_constraints` returns `a.cmp(&b)` on the first difference of the
reversed scopes, and its consumer `search_broken_constraint` breaks out of
its scan at the first scope whose last id exceeds the current variable,
which requires exactly this ascending order).  Amended statement: every
Propagated problem emitted by `constraint_propagation` has its constraint
list sorted ascending under the source comparator, i.e. primarily by the
index of the last scope element, ties broken by earlier elements
most-significant-last. -/
theorem C7_constraints_sorted_ascending (np : NormalizedProblem) (fuel : Nat)
    (p : PropagatedProblem) (h : np.constraint_propagation fuel = some (some p)) :
    List.Sorted (fun a b => cmpScope a.1 b.1 ≠ .gt) p.constraints := by
  simp only [NormalizedProblem.constraint_propagation] at h
  rcases hm : makeArcConsistency (makeNodeConsistency np) fuel with _ | _ | st1
  · rw [hm] at h
    cases h
  · rw [hm] at h
    cases h
  · rw [hm] at h
    simp only [Option.some.injEq] at h
    rw [← h]
    exact sortConstraints_sorted _

/-- The Propagated problem of `rawC7`'s pipeline, used as the concrete
witness input. -/
def ppC7 : PropagatedProblem := (((pipeline rawC7 10).getD none).getD ⟨[], [], []⟩)

/-- Witness for C7's amended theorem at the concrete problem `rawC7`. -/
theorem C7_constraints_sorted_ascending_witness :
    List.Sorted (fun a b => cmpScope a.1 b.1 ≠ .gt) ppC7.constraints :=
  C7_constraints_sorted_ascending rawC7.normalize_problem 10 ppC7 rfl

end Constraint

namespace Constraint

theorem modifyIdx_length (l : List α) (i : Nat) (f : α → α) :
    (modifyIdx l i f).length = l.length := by
  induction l generalizing i with
  | nil => rfl
  | cons a t ih =>
    cases i with
    | zero => rfl
    | succ i => simpa [modifyIdx] using ih i

theorem modifyIdx_get? (l : List α) (i : Nat) (f : α → α) (j : Nat) :
    (modifyIdx l i f).get? j =
      if j = i then (l.get? j).map f else l.get? j := by
  induction l generalizing i j with
  | nil => simp [modifyIdx]
  | cons a t ih =>
    cases i with
    | zero =>
      cases j with
      | zero => simp [modifyIdx]
      | succ j => simp [modifyIdx]
    | succ i =>
      cases j with
      | zero => simp [modifyIdx]
      | succ j =>
        simp only [modifyIdx, List.get?]
        rw [ih i j]
        simp [Nat.succ_inj]

/-- Pointwise domain shrinking: same number of domains and each value
list a sublist (order-preserving subsequence) of the corresponding one. -/
def domSub (a b : List Domain) : Prop :=
  a.length = b.length ∧
    ∀ i da db, a.get? i = some da → b.get? i = some db →
      da.values.Sublist db.values

theorem domSub_refl (a : List Domain) : domSub a a := by
  refine ⟨rfl, fun i da db hda hdb => ?_⟩
  rw [hda] at hdb
  cases hdb
  exact List.Sublist.refl _

theorem domSub_trans {a b c : List Domain} (hab : domSub a b)
    (hbc : domSub b c) : domSub a c := by
  refine ⟨hab.1.trans hbc.1, fun i da dc hda hdc => ?_⟩
  rcases hb : b.get? i with _ | db
  · exfalso
    have hlen : b.length ≤ i := List.get?_eq_none.1 hb
    obtain ⟨hlt, -⟩ := List.get?_eq_some.1 hda
    have := hab.1
    omega
  · exact (hab.2 i da db hda hb).trans (hbc.2 i db dc hb hdc)

theorem nodeStep_vars (st : NormalizedProblem) (i : Nat) :
    (nodeStep st i).vars = st.vars := by
  simp only [nodeStep]
  split <;> rfl

theorem nodeStep_domSub (st : NormalizedProblem) (i : Nat) :
    domSub (nodeStep st i).domains st.domains := by
  simp only [nodeStep]
  split
  · refine ⟨modifyIdx_length _ _ _, fun j da db hda hdb => ?_⟩
    rw [modifyIdx_get? _ _ _ j] at hda
    by_cases hj : j = i
    · rw [if_pos hj, hdb] at hda
      simp only [Option.map_some'] at hda
      cases hda
      exact List.filter_sublist _
    · rw [if_neg hj, hdb] at hda
      cases hda
      exact List.Sublist.refl _
  · exact domSub_refl _

theorem foldl_nodeStep_domSub :
    ∀ (l : List Nat) (st : NormalizedProblem),
      domSub (l.foldl nodeStep st).domains st.domains ∧
        (l.foldl nodeStep st).vars = st.vars
  | [], st => ⟨domSub_refl _, rfl⟩
  | i :: t, st => by
    have ih := foldl_nodeStep_domSub t (nodeStep st i)
    exact ⟨domSub_trans ih.1 (nodeStep_domSub st i),
      ih.2.trans (nodeStep_vars st i)⟩

theorem arcReduceStep_domSub (x y : Nat) (acc : NormalizedProblem × Bool)
    (vx : Int) :
    domSub (arcReduceStep x y acc vx).1.domains acc.1.domains ∧
      (arcReduceStep x y acc vx).1.vars = acc.1.vars ∧
      (arcReduceStep x y acc vx).1.constraints = acc.1.constraints := by
  simp only [arcReduceStep]
  split
  · exact ⟨domSub_refl _, rfl, rfl⟩
  · refine ⟨⟨modifyIdx_length _ _ _, fun j da db hda hdb => ?_⟩, rfl, rfl⟩
    rw [modifyIdx_get? _ _ _ j] at hda
    by_cases hj : j = x
    · rw [if_pos hj, hdb] at hda
      simp only [Option.map_some'] at hda
      cases hda
      exact List.filter_sublist _
    · rw [if_neg hj, hdb] at hda
      cases hda
      exact List.Sublist.refl _

theorem foldl_arcReduceStep_domSub (x y : Nat) :
    ∀ (l : List Int) (acc : NormalizedProblem × Bool),
      domSub (l.foldl (arcReduceStep x y) acc).1.domains acc.1.domains ∧
        (l.foldl (arcReduceStep x y) acc).1.vars = acc.1.vars ∧
        (l.foldl (arcReduceStep x y) acc).1.constraints = acc.1.constraints
  | [], acc => ⟨domSub_refl _, rfl, rfl⟩
  | v :: t, acc => by
    have ih := foldl_arcReduceStep_domSub x y t (arcReduceStep x y acc v)
    have hs := arcReduceStep_domSub x y acc v
    exact ⟨domSub_trans ih.1 hs.1, ih.2.1.trans hs.2.1, ih.2.2.trans hs.2.2⟩

theorem arcReduce_domSub (st : NormalizedProblem) (x y : Nat) :
    domSub (arcReduce st x y).1.domains st.domains ∧
      (arcReduce st x y).1.vars = st.vars ∧
      (arcReduce st x y).1.constraints = st.constraints :=
  foldl_arcReduceStep_domSub x y (dvals st x) (st, false)

theorem acLoop_domSub :
    ∀ (fuel : Nat) (st : NormalizedProblem) (stack : List (Nat × Nat))
      (st1 : NormalizedProblem), acLoop st stack fuel = some (some st1) →
      domSub st1.domains st.domains ∧ st1.vars = st.vars ∧
        st1.constraints = st.constraints
  | 0, _, _, _, h => by cases h
  | fuel + 1, st, [], st1, h => by
    simp only [acLoop, Option.some.injEq] at h
    rw [← h]
    exact ⟨domSub_refl _, rfl, rfl⟩
  | fuel + 1, st, (x, y) :: rest, st1, h => by
    simp only [acLoop] at h
    have hr := arcReduce_domSub st x y
    split at h
    · split at h
      · cases h
      · have ih := acLoop_domSub fuel (arcReduce st x y).1 _ st1 h
        exact ⟨domSub_trans ih.1 hr.1, ih.2.1.trans hr.2.1,
          ih.2.2.trans hr.2.2⟩
    · have ih := acLoop_domSub fuel (arcReduce st x y).1 rest st1 h
      exact ⟨domSub_trans ih.1 hr.1, ih.2.1.trans hr.2.1,
        ih.2.2.trans hr.2.2⟩

/-- C8.  For every Propagated problem the pipeline emits, each variable's
final domain contains only values of its initial (raw) domain, is never
larger, and is sorted ascending. -/
theorem C8_domains_shrink_and_sorted (r : RawProblem) (fuel : Nat)
    (p : PropagatedProblem) (h : pipeline r fuel = some (some p)) :
    p.domains.length = r.domains.length ∧
      ∀ i dp dr, p.domains.get? i = some dp → r.domains.get? i = some dr →
        (∀ v ∈ dp.values, v ∈ dr.values) ∧
          dp.values.length ≤ dr.values.length ∧
          List.Sorted (· ≤ ·) dp.values := by
  simp only [pipeline, NormalizedProblem.constraint_propagation] at h
  rcases hm : makeArcConsistency (makeNodeConsistency r.normalize_problem) fuel
    with _ | _ | st1
  · rw [hm] at h
    cases h
  · rw [hm] at h
    cases h
  · rw [hm] at h
    simp only [Option.some.injEq] at h
    have hnode := foldl_nodeStep_domSub
      (List.range r.normalize_problem.vars.length) r.normalize_problem
  -- node consistency output, then the arc-consistency loop
    have hwl := acLoop_domSub fuel (makeNodeConsistency r.normalize_problem)
      (initialWorklist (makeNodeConsistency r.normalize_problem)).reverse st1 hm
    have hsub : domSub st1.domains r.domains :=
      domSub_trans hwl.1 hnode.1
    have hpdom : p.domains = st1.domains.map
        (fun d => { d with values := d.values.insertionSort (· ≤ ·) }) := by
      rw [← h]
      rfl
    refine ⟨?_, fun i dp dr hdp hdr => ?_⟩
    · rw [hpdom, List.length_map]
      exact hsub.1
    · rw [hpdom, List.get?_map] at hdp
      rcases h1 : st1.domains.get? i with _ | d1
      · rw [h1] at hdp
        cases hdp
      · rw [h1] at hdp
        simp only [Option.map_some', Option.some.injEq] at hdp
        have hsl := hsub.2 i d1 dr h1 hdr
        have hperm : dp.values.Perm d1.values := by
          rw [← hdp]
          exact List.perm_insertionSort _ _
        refine ⟨fun v hv => hsl.subset (hperm.mem_iff.1 hv), ?_, ?_⟩
        · rw [hperm.length_eq]
          exact hsl.length_le
        · rw [← hdp]
          exact List.sorted_insertionSort _ _

/-- A concrete one-variable problem whose domain is supplied unsorted. -/
def rawC8 : RawProblem := (RawProblem.new.add_var [3, 1, 2]).1

/-- The Propagated problem of `rawC8`'s pipeline. -/
def ppC8 : PropagatedProblem := (((pipeline rawC8 10).getD none).getD ⟨[], [], []⟩)

/-- Witness for C8 at a concrete problem: the unsorted initial domain
`[3, 1, 2]` comes out as the sorted `[1, 2, 3]`, a permutation. -/
theorem C8_domains_shrink_and_sorted_witness :
    ppC8.domains.length = rawC8.domains.length ∧
      (∀ v ∈ ([1, 2, 3] : List Int), v ∈ ([3, 1, 2] : List Int)) ∧
      List.Sorted (· ≤ ·) ([1, 2, 3] : List Int) := by
  have hall := C8_domains_shrink_and_sorted rawC8 10 ppC8 rfl
  have hone := hall.2 0 ⟨0, [1, 2, 3]⟩ ⟨0, [3, 1, 2]⟩ rfl rfl
  exact ⟨hall.1, hone.1, hone.2.2⟩

end Constraint

namespace Constraint

/-- Rust `slice::binary_search` midpoint loop.  `none` is `Err(_)` (the
probe was not found); `some i` is `Ok(i)` with `vals[i] = target`.  The
loop halves `right - left` each turn, so the structural fuel
`vals.length + 1` the caller passes never runs out. -/
def bsLoop (vals : List Int) (t : Int) : Nat → Nat → Nat → Option Nat
  | 0, _, _ => none
  | fuel + 1, left, right =>
    if left < right then
      let mid := left + (right - left) / 2
      let x := vals.getD mid 0
      if x < t then bsLoop vals t fuel (mid + 1) right
      else if t < x then bsLoop vals t fuel left mid
      else some mid
    else none

/-- Rust `self.domains[k-1].values.binary_search(&curr_val)`. -/
def binarySearch (vals : List Int) (t : Int) : Option Nat :=
  bsLoop vals t (vals.length + 1) 0 vals.length

/-- Collection of `candidate[var.id].unwrap()` over a scope, in scope
order: `none` models the panic (out-of-range index or unassigned slot). -/
def collectVals (cand : Candidate) : Scope → Option (List Int)
  | [] => some []
  | v :: t =>
    match (cand.get? v).bind (fun x => x) with
    | none => none
    | some u =>
      match collectVals cand t with
      | none => none
      | some us => some (u :: us)

/-- Evaluation of one stored constraint against a partial candidate:
`none` models the panics of `candidate[var.id].unwrap()`, `some b` the
predicate's verdict. -/
def evalC (cand : Candidate) (c : Scope × Evaluation) : Option Bool :=
  (collectVals cand c.1).map c.2

/-- Rust `candidate.into_iter().collect::<Option<Vec<_>>>()`. -/
def collectAssign : Candidate → Option (List Int)
  | [] => some []
  | none :: _ => none
  | some v :: t => (collectAssign t).map (fun us => v :: us)

/-- Scan of `PropagatedProblem::reject`'s filtered constraint iterator:
constraints whose scope ends in `curr` are evaluated in list order, the
first violated one returns `true`. -/
def rejectLoop (cand : Candidate) (curr : Nat) :
    List (Scope × Evaluation) → Option Bool
  | [] => some false
  | c :: rest =>
    if c.1.getLast? = some curr then
      match evalC cand c with
      | none => none
      | some b => if b then rejectLoop cand curr rest else some true
    else rejectLoop cand curr rest

/-- Rust `PropagatedProblem::reject`. -/
def reject? (p : PropagatedProblem) (cand : Candidate) (k : Nat) : Option Bool :=
  if k = 0 then some false
  else
    match p.vars.get? (k - 1) with
    | none => none
    | some curr => rejectLoop cand curr p.constraints

/-- Rust `PropagatedProblem::accept`: reads `candidate[len - 1]`, a panic
on the empty candidate. -/
def accept? (cand : Candidate) : Option Bool :=
  match cand.get? (cand.length - 1) with
  | none => none
  | some v => some v.isSome

/-- Rust `PropagatedProblem::first`: a `some (cand, s)` result carries the
mutated candidate and the returned flag; `none` is a panic
(`domains[k]` or `values[0]` out of range). -/
def first? (p : PropagatedProblem) (cand : Candidate) (k : Nat) :
    Option (Candidate × Bool) :=
  if cand.getLast?.elim false (fun x => x.isSome) then some (cand, false)
  else
    match p.domains.get? k with
    | none => none
    | some d =>
      match d.values.get? 0 with
      | none => none
      | some v =>
        match setIdx? cand k (some v) with
        | none => none
        | some cand1 => some (cand1, true)

/-- Rust `PropagatedProblem::next`: panics (`none`) on out-of-range
indices, on `unwrap` of an unassigned slot, on `binary_search(..).unwrap()`
failure and on `values[i+1]` past the end. -/
def next? (p : PropagatedProblem) (cand : Candidate) (k : Nat) :
    Option (Candidate × Bool) :=
  match cand.get? (k - 1), p.domains.get? (k - 1) with
  | some cv, some d =>
    if cv = d.values.getLast? then some (cand, false)
    else
      match cv with
      | none => none
      | some curr =>
        match binarySearch d.values curr with
        | none => none
        | some i =>
          match d.values.get? (i + 1) with
          | none => none
          | some nv =>
            match setIdx? cand (k - 1) (some nv) with
            | none => none
            | some cand1 => some (cand1, true)
  | _, _ => none

mutual

/-- Rust `PropagatedProblem::backtrack`.  The outer `none` is exhausted
fuel, `some none` a panic, `some (some (cand, b))` the Rust return value
`b` together with the candidate as mutated so far. -/
def btRun (p : PropagatedProblem) :
    Nat → Candidate → Nat → Option (Option (Candidate × Bool))
  | 0, _, _ => none
  | fuel + 1, cand, k =>
    match reject? p cand k with
    | none => some none
    | some true => some (some (cand, false))
    | some false =>
      match accept? cand with
      | none => some none
      | some true => some (some (cand, true))
      | some false =>
        match first? p cand k with
        | none => some none
        | some (cand1, true) => btLoop p fuel cand1 k
        | some (cand1, false) =>
          match setIdx? cand1 k none with
          | none => some none
          | some cand2 => some (some (cand2, false))

/-- The `while s { .. }` loop of `backtrack`, entered with the slot `k`
freshly assigned; on loop exit the slot `k` is cleared. -/
def btLoop (p : PropagatedProblem) :
    Nat → Candidate → Nat → Option (Option (Candidate × Bool))
  | 0, _, _ => none
  | fuel + 1, cand, k =>
    match btRun p fuel cand (k + 1) with
    | none => none
    | some none => some none
    | some (some (cand2, true)) => some (some (cand2, true))
    | some (some (cand2, false)) =>
      match next? p cand2 (k + 1) with
      | none => some none
      | some (cand3, true) => btLoop p fuel cand3 k
      | some (cand3, false) =>
        match setIdx? cand3 k none with
        | none => some none
        | some cand4 => some (some (cand4, false))

end

/-- Rust `PropagatedProblem::solve_backtracking`.  Outer `none`: fuel ran
out; `some none`: a panic; `some (some r)` the Rust `Option<Vec<i32>>`
result (`r = none` is NoSolution). -/
def solve_backtracking (p : PropagatedProblem) (fuel : Nat) :
    Option (Option (Option (List Int))) :=
  let cand : Candidate := List.replicate p.vars.length none
  match btRun p fuel cand 0 with
  | none => none
  | some none => some none
  | some (some (c, true)) => some (some (collectAssign c))
  | some (some (_, false)) => some (some none)

end Constraint

namespace Constraint

/-- Rust `PropagatedProblem::search_broken_constraint`: scan the ordered
constraint list, break out at the first scope whose last id exceeds `i`,
skip scopes not ending in exactly `(k, i)`, and return the first violated
matching scope.  `none` is a panic (empty scope indexing or an `unwrap`
of an unassigned value). -/
def sbcLoop (vals : Candidate) (i k : Nat) :
    List (Scope × Evaluation) → Option (Option Scope)
  | [] => some none
  | c :: rest =>
    match c.1.getLast? with
    | none => none
    | some lastId =>
      if i < lastId then some none
      else if 2 ≤ c.1.length ∧ lastId = i ∧ c.1.getD (c.1.length - 2) 0 = k then
        match evalC vals c with
        | none => none
        | some b => if b then sbcLoop vals i k rest else some (some c.1)
      else sbcLoop vals i k rest

/-- Rust `search_broken_constraint` entry point. -/
def search_broken_constraint? (p : PropagatedProblem) (i k : Nat)
    (vals : Candidate) : Option (Option Scope) :=
  sbcLoop vals i k p.constraints

/-- The `while k < i && consistent` loop of `select_val_cbj`: on the first
broken constraint all non-`i` scope ids join the conflict set and the
trial value is inconsistent. -/
def checkLoop (p : PropagatedProblem) (i : Nat) (vals : Candidate) :
    Nat → Finset Nat → Nat → Option (Finset Nat × Bool)
  | 0, conf, k => if k < i then none else some (conf, true)
  | fuel + 1, conf, k =>
    if k < i then
      match sbcLoop vals i k p.constraints with
      | none => none
      | some none => checkLoop p i vals fuel conf (k + 1)
      | some (some s) =>
          some (conf ∪ (s.filter (fun v => v ≠ i)).toFinset, false)
    else some (conf, true)

/-- Rust `PropagatedProblem::select_val_cbj`: values are popped from the
back of the working domain copy; each trial value is written into
`vals[i]` and checked against every earlier `k`; the updated working
domain, conflict set, candidate and the selected value (if any) are
returned. -/
def selectValCbj? (p : PropagatedProblem) (i : Nat) :
    Nat → List Int → Finset Nat → Candidate →
      Option (List Int × Finset Nat × Candidate × Option Int)
  | 0, _, _, _ => none
  | fuel + 1, cd, conf, vals =>
    match cd.getLast? with
    | none => some (cd, conf, vals, none)
    | some a =>
      match setIdx? vals i (some a) with
      | none => none
      | some vals1 =>
        match checkLoop p i vals1 i conf 0 with
        | none => none
        | some (conf1, true) => some (cd.dropLast, conf1, vals1, some a)
        | some (conf1, false) => selectValCbj? p i fuel cd.dropLast conf1 vals1

/-- The CBJ solver state: current index, candidate, per-variable working
domain copies and per-variable conflict sets (Rust `HashSet<usize>` is a
`Finset Nat`). -/
structure CbjState where
  i : Nat
  vals : Candidate
  currDomain : List (List Int)
  confSet : List (Finset Nat)

/-- One iteration of `solve_cbj`'s `while i < n` loop.  `none` is a
panic; `Sum.inl` continues with the next state; `Sum.inr` is the final
result (the collected assignment, or `none` for NoSolution). -/
def cbjStep (p : PropagatedProblem) (n : Nat) (st : CbjState) :
    Option (CbjState ⊕ Option (List Int)) :=
  if st.i < n then
    match st.currDomain.get? st.i, st.confSet.get? st.i with
    | some cd, some conf =>
      match selectValCbj? p st.i (cd.length + 1) cd conf st.vals with
      | none => none
      | some (cd1, conf1, vals1, res) =>
        match setIdx? st.currDomain st.i cd1, setIdx? st.confSet st.i conf1,
            setIdx? vals1 st.i res with
        | some cds, some confs, some vals2 =>
          match res with
          | none =>
            if hne : conf1.Nonempty then
              match confs.get? (conf1.max' hne) with
              | none => none
              | some confm =>
                match setIdx? confs (conf1.max' hne)
                    ((confm ∪ conf1).erase (conf1.max' hne)) with
                | none => none
                | some confs1 =>
                  some (Sum.inl ⟨conf1.max' hne, vals2, cds, confs1⟩)
            else some (Sum.inr none)
          | some _ =>
            if st.i + 1 = n then some (Sum.inr (collectAssign vals2))
            else
              match p.domains.get? (st.i + 1) with
              | none => none
              | some d =>
                match setIdx? cds (st.i + 1) d.values,
                    setIdx? confs (st.i + 1) (∅ : Finset Nat) with
                | some cds1, some confs1 =>
                    some (Sum.inl ⟨st.i + 1, vals2, cds1, confs1⟩)
                | _, _ => none
        | _, _, _ => none
    | _, _ => none
  else some (Sum.inr (collectAssign st.vals))

/-- The `while i < n` loop, driven by fuel (outer `none`). -/
def cbjRun (p : PropagatedProblem) (n : Nat) :
    Nat → CbjState → Option (Option (Option (List Int)))
  | 0, _ => none
  | fuel + 1, st =>
    match cbjStep p n st with
    | none => some none
    | some (Sum.inr r) => some (some r)
    | some (Sum.inl st1) => cbjRun p n fuel st1

/-- Rust `PropagatedProblem::solve_cbj`.  Outer `none`: fuel ran out;
`some none`: a panic; `some (some r)` the Rust `Option<Vec<i32>>` result. -/
def solve_cbj (p : PropagatedProblem) (fuel : Nat) :
    Option (Option (Option (List Int))) :=
  let n := p.vars.length
  cbjRun p n fuel
    ⟨0, List.replicate n none, p.domains.map (fun d => d.values),
      List.replicate n ∅⟩

end Constraint

namespace Constraint

theorem set_get? (l : List α) (i : Nat) (v : α) (j : Nat) :
    (l.set i v).get? j = if j = i ∧ i < l.length then some v else l.get? j := by
  induction l generalizing i j with
  | nil =>
    rw [show List.set ([] : List α) i v = [] from rfl, if_neg (by simp)]
  | cons a t ih =>
    cases i with
    | zero =>
      cases j with
      | zero => simp
      | succ j => simp [Nat.succ_ne_zero]
    | succ i =>
      cases j with
      | zero => simp
      | succ j =>
        simp only [List.set, List.get?, ih i j, List.length_cons]
        by_cases h1 : j = i ∧ i < t.length
        · rw [if_pos h1, if_pos ⟨by omega, by omega⟩]
        · rw [if_neg h1, if_neg (by omega)]

theorem setIdx?_eq_some {l : List α} {i : Nat} {v : α} {l' : List α} :
    setIdx? l i v = some l' ↔ i < l.length ∧ l' = l.set i v := by
  unfold setIdx?
  split
  · simp only [Option.some.injEq]
    constructor
    · intro h
      exact ⟨by assumption, h.symm⟩
    · intro h
      exact h.2.symm
  · rename_i hlt
    constructor
    · intro h
      cases h
    · intro h
      exact absurd h.1 hlt

theorem get?_replicate (n j : Nat) (a : α) :
    (List.replicate n a).get? j = if j < n then some a else none := by
  induction n generalizing j with
  | zero => simp
  | succ n ih =>
    cases j with
    | zero => simp [List.replicate]
    | succ j =>
      simp only [List.replicate, List.get?, ih j]
      by_cases h : j < n
      · rw [if_pos h, if_pos (by omega)]
      · rw [if_neg h, if_neg (by omega)]

theorem get?_range (n j : Nat) :
    (List.range n).get? j = if j < n then some j else none := by
  by_cases h : j < n
  · rw [if_pos h]
    exact List.get?_range h
  · rw [if_neg h]
    exact List.get?_eq_none.2 (by simpa using Nat.le_of_not_lt h)

theorem collectVals_congr {cand1 cand2 : Candidate} :
    ∀ (s : Scope), (∀ v ∈ s, cand1.get? v = cand2.get? v) →
      collectVals cand1 s = collectVals cand2 s
  | [], _ => rfl
  | v :: t, h => by
    simp only [collectVals]
    rw [h v (by simp), collectVals_congr t (fun u hu => h u (by simp [hu]))]

theorem collectVals_isSome {cand : Candidate} :
    ∀ (s : Scope), (∀ v ∈ s, ∃ u, cand.get? v = some (some u)) →
      ∃ vs, collectVals cand s = some vs
  | [], _ => ⟨[], rfl⟩
  | v :: t, h => by
    obtain ⟨u, hu⟩ := h v (by simp)
    obtain ⟨vs, hvs⟩ := collectVals_isSome t (fun w hw => h w (by simp [hw]))
    refine ⟨u :: vs, ?_⟩
    simp only [collectVals]
    rw [hu, hvs]
    rfl

theorem evalC_congr {cand1 cand2 : Candidate} (c : Scope × Evaluation)
    (h : ∀ v ∈ c.1, cand1.get? v = cand2.get? v) :
    evalC cand1 c = evalC cand2 c := by
  unfold evalC
  rw [collectVals_congr c.1 h]

theorem evalC_isSome {cand : Candidate} (c : Scope × Evaluation)
    (h : ∀ v ∈ c.1, ∃ u, cand.get? v = some (some u)) :
    ∃ b, evalC cand c = some b := by
  obtain ⟨vs, hvs⟩ := collectVals_isSome c.1 h
  exact ⟨c.2 vs, by simp [evalC, hvs]⟩

theorem chain_lt_le_getLast :
    ∀ (s : List Nat), s.Chain' (· < ·) → ∀ l, s.getLast? = some l →
      ∀ v ∈ s, v ≤ l
  | [], _, _, hl => by cases hl
  | [a], _, l, hl => by
    simp only [List.getLast?_singleton, Option.some.injEq] at hl
    intro v hv
    simp only [List.mem_singleton] at hv
    omega
  | a :: b :: t, hc, l, hl => by
    rw [List.chain'_cons] at hc
    have hl2 : (b :: t).getLast? = some l := by
      rwa [List.getLast?_cons_cons] at hl
    have ih := chain_lt_le_getLast (b :: t) hc.2 l hl2
    intro v hv
    rcases List.mem_cons.1 hv with rfl | hv
    · have hb := ih b (by simp)
      omega
    · exact ih v hv

theorem rejectLoop_false_sat {cand : Candidate} {curr : Nat} :
    ∀ (cs : List (Scope × Evaluation)), rejectLoop cand curr cs = some false →
      ∀ c ∈ cs, c.1.getLast? = some curr → evalC cand c = some true
  | [], _, c, hc, _ => by cases hc
  | c0 :: rest, h, c, hc, hlast => by
    simp only [rejectLoop] at h
    rcases List.mem_cons.1 hc with rfl | hc
    · rw [if_pos hlast] at h
      rcases he : evalC cand c with _ | b
      · rw [he] at h
        cases h
      · rw [he] at h
        cases b
        · simp at h
        · rfl
    · by_cases h0 : c0.1.getLast? = some curr
      · rw [if_pos h0] at h
        rcases he : evalC cand c0 with _ | b
        · rw [he] at h
          cases h
        · rw [he] at h
          cases b
          · simp at h
          · exact rejectLoop_false_sat rest (by simpa using h) c hc hlast
      · rw [if_neg h0] at h
        exact rejectLoop_false_sat rest h c hc hlast

theorem rejectLoop_isSome {cand : Candidate} {curr : Nat} :
    ∀ (cs : List (Scope × Evaluation)),
      (∀ c ∈ cs, c.1.getLast? = some curr → ∃ b, evalC cand c = some b) →
      ∃ b, rejectLoop cand curr cs = some b
  | [], _ => ⟨false, rfl⟩
  | c0 :: rest, h => by
    simp only [rejectLoop]
    by_cases h0 : c0.1.getLast? = some curr
    · rw [if_pos h0]
      obtain ⟨b, hb⟩ := h c0 (by simp) h0
      rw [hb]
      cases b
      · exact ⟨true, rfl⟩
      · simpa using rejectLoop_isSome rest
          (fun c hc hl => h c (by simp [hc]) hl)
    · rw [if_neg h0]
      exact rejectLoop_isSome rest (fun c hc hl => h c (by simp [hc]) hl)

end Constraint

namespace Constraint

theorem getD_eq_of_get? {vals : List Int} {m : Nat} {v : Int}
    (h : vals.get? m = some v) : vals.getD m 0 = v := by
  unfold List.getD
  rw [List.get?_eq_getElem?] at h
  simp [h]

theorem bsLoop_found {vals : List Int} {t : Int} :
    ∀ (fuel left right i : Nat), right ≤ vals.length →
      bsLoop vals t fuel left right = some i →
      vals.get? i = some t ∧ left ≤ i ∧ i < right := by
  intro fuel
  induction fuel with
  | zero =>
    intro left right i hle h
    cases h
  | succ fuel ih =>
    intro left right i hle h
    simp only [bsLoop] at h
    by_cases hlr : left < right
    · rw [if_pos hlr] at h
      by_cases h1 : vals.getD (left + (right - left) / 2) 0 < t
      · rw [if_pos h1] at h
        obtain ⟨ha, hb2, hc2⟩ := ih (left + (right - left) / 2 + 1) right i hle h
        exact ⟨ha, by omega, hc2⟩
      · rw [if_neg h1] at h
        by_cases h2 : t < vals.getD (left + (right - left) / 2) 0
        · rw [if_pos h2] at h
          obtain ⟨ha, hb2, hc2⟩ := ih left (left + (right - left) / 2) i (by omega) h
          exact ⟨ha, hb2, by omega⟩
        · rw [if_neg h2] at h
          cases h
          have hmid : left + (right - left) / 2 < vals.length := by omega
          have hget : ∃ v, vals.get? (left + (right - left) / 2) = some v := by
            rw [List.get?_eq_getElem?]
            exact ⟨vals[left + (right - left) / 2], List.getElem?_eq_getElem hmid⟩
          obtain ⟨v, hv⟩ := hget
          have hvd := getD_eq_of_get? hv
          have hvt : v = t := by
            rw [← hvd]
            exact le_antisymm (not_lt.1 h2) (not_lt.1 h1)
          exact ⟨by rw [hv, hvt], by omega, by omega⟩
    · rw [if_neg hlr] at h
      cases h

theorem bsLoop_finds {vals : List Int} {t : Int}
    (hs : List.Sorted (· ≤ ·) vals) :
    ∀ (fuel left right : Nat), right - left ≤ fuel → right ≤ vals.length →
      (∃ j, left ≤ j ∧ j < right ∧ vals.get? j = some t) →
      (bsLoop vals t fuel left right).isSome := by
  intro fuel
  induction fuel with
  | zero =>
    intro left right hf hle hj
    obtain ⟨j, h1, h2, _⟩ := hj
    omega
  | succ fuel ih =>
    intro left right hf hle hj
    obtain ⟨j, hj1, hj2, hj3⟩ := hj
    have hlr : left < right := by omega
    simp only [bsLoop]
    rw [if_pos hlr]
    obtain ⟨hjlen, hjget⟩ := List.get?_eq_some.1 hj3
    by_cases h1 : vals.getD (left + (right - left) / 2) 0 < t
    · rw [if_pos h1]
      refine ih (left + (right - left) / 2 + 1) right (by omega) hle ⟨j, ?_, hj2, hj3⟩
      by_contra hcon
      have hjle : j ≤ left + (right - left) / 2 := by omega
      have hmid : left + (right - left) / 2 < vals.length := by omega
      have hle2 : vals.get ⟨j, hjlen⟩ ≤ vals.get ⟨left + (right - left) / 2, hmid⟩ := by
        rcases Nat.lt_or_ge j (left + (right - left) / 2) with hlt | hge
        · exact hs.rel_get_of_lt hlt
        · have : j = left + (right - left) / 2 := by omega
          subst this
          exact le_refl _
      have hgd : vals.getD (left + (right - left) / 2) 0 =
          vals.get ⟨left + (right - left) / 2, hmid⟩ := by
        apply getD_eq_of_get?
        rw [List.get?_eq_get hmid]
      rw [hjget, ← hgd] at hle2
      exact absurd hle2 h1.not_le
    · rw [if_neg h1]
      by_cases h2 : t < vals.getD (left + (right - left) / 2) 0
      · rw [if_pos h2]
        refine ih left (left + (right - left) / 2) (by omega) (by omega)
          ⟨j, hj1, ?_, hj3⟩
        by_contra hcon
        have hjge : left + (right - left) / 2 ≤ j := by omega
        have hmid : left + (right - left) / 2 < vals.length := by omega
        have hle2 : vals.get ⟨left + (right - left) / 2, hmid⟩ ≤ vals.get ⟨j, hjlen⟩ := by
          rcases Nat.lt_or_ge (left + (right - left) / 2) j with hlt | hge
          · exact hs.rel_get_of_lt hlt
          · have : left + (right - left) / 2 = j := by omega
            subst this
            exact le_refl _
        have hgd : vals.getD (left + (right - left) / 2) 0 =
            vals.get ⟨left + (right - left) / 2, hmid⟩ := by
          apply getD_eq_of_get?
          rw [List.get?_eq_get hmid]
        rw [hjget, ← hgd] at hle2
        exact absurd hle2 h2.not_le
      · rw [if_neg h2]
        rfl

/-- Search of a value present in a sorted list succeeds and returns one of
its positions. -/
theorem binarySearch_finds {vals : List Int} {t : Int}
    (hs : List.Sorted (· ≤ ·) vals) (hmem : t ∈ vals) :
    ∃ i, binarySearch vals t = some i ∧ vals.get? i = some t := by
  obtain ⟨j, hj⟩ := List.get?_of_mem hmem
  have hsome := bsLoop_finds hs (vals.length + 1) 0 vals.length (by omega) (le_refl _)
    ⟨j, by omega, (List.get?_eq_some.1 hj).1, hj⟩
  rcases hb : bsLoop vals t (vals.length + 1) 0 vals.length with _ | i
  · rw [hb] at hsome
    cases hsome
  · obtain ⟨hget, -, -⟩ := bsLoop_found (vals.length + 1) 0 vals.length i
      (le_refl _) hb
    exact ⟨i, hb, hget⟩

end Constraint

namespace Constraint

theorem get?_isSome_of_lt {l : List α} {j : Nat} (h : j < l.length) :
    ∃ a, l.get? j = some a := by
  rcases hx : l.get? j with _ | a
  · rw [List.get?_eq_none] at hx
    omega
  · exact ⟨a, rfl⟩

theorem getLast?_of_ne_nil {l : List Nat} (h : l ≠ []) :
    ∃ a, l.getLast? = some a ∧ a ∈ l := by
  have hlen : 0 < l.length := List.length_pos.2 h
  rw [List.getLast?_eq_get?]
  obtain ⟨a, ha⟩ := get?_isSome_of_lt (l := l) (j := l.length - 1) (by omega)
  exact ⟨a, ha, List.get?_mem ha⟩

/-- Values stored for variable `j` in a propagated problem. -/
def valuesAt (p : PropagatedProblem) (j : Nat) : List Int :=
  ((p.domains.get? j).map (fun d => d.values)).getD []

/-- Structural well-formedness of a Propagated problem, as the pipeline
produces it for a builder-built raw problem with valid constraint scopes:
variables are the dense range, scopes are non-empty, strictly ascending
and in range, and domains are sorted. -/
structure PPWF (p : PropagatedProblem) : Prop where
  vars_eq : p.vars = List.range p.domains.length
  scopes_ne : ∀ c ∈ p.constraints, c.1 ≠ []
  scopes_strict : ∀ c ∈ p.constraints, List.Chain' (· < ·) c.1
  scopes_lt : ∀ c ∈ p.constraints, ∀ v ∈ c.1, v < p.domains.length
  doms_sorted : ∀ d ∈ p.domains, List.Sorted (· ≤ ·) d.values

/-- Invariant at entry of `backtrack(cand, k)`: slots below `k` hold
domain values, slots from `k` on are unassigned. -/
def BtPre (p : PropagatedProblem) (cand : Candidate) (k : Nat) : Prop :=
  cand.length = p.domains.length ∧ k ≤ p.domains.length ∧
    (∀ j, j < k → ∃ v, cand.get? j = some (some v) ∧ v ∈ valuesAt p j) ∧
    (∀ j, k ≤ j → j < p.domains.length → cand.get? j = some none)

/-- Invariant inside the value loop at level `k`: slots up to and
including `k` hold domain values, later slots are unassigned. -/
def LoopPre (p : PropagatedProblem) (cand : Candidate) (k : Nat) : Prop :=
  cand.length = p.domains.length ∧ k < p.domains.length ∧
    (∀ j, j ≤ k → ∃ v, cand.get? j = some (some v) ∧ v ∈ valuesAt p j) ∧
    (∀ j, k < j → j < p.domains.length → cand.get? j = some none)

/-- Every constraint whose last scope variable is below `m` evaluates to
true on the candidate. -/
def SatUpTo (p : PropagatedProblem) (cand : Candidate) (m : Nat) : Prop :=
  ∀ c ∈ p.constraints, ∀ l, c.1.getLast? = some l → l < m →
    evalC cand c = some true

/-- Shape of a candidate returned together with `false`: everything below
`k` untouched, everything from `k` on cleared. -/
def PostFalse (p : PropagatedProblem) (cand : Candidate) (k : Nat)
    (c : Candidate) : Prop :=
  c.length = cand.length ∧ (∀ j, j < k → c.get? j = cand.get? j) ∧
    (∀ j, k ≤ j → j < p.domains.length → c.get? j = some none)

/-- Shape of a candidate returned together with `true`: everything below
`k` untouched, every variable assigned a domain value, every constraint
satisfied. -/
def PostTrue (p : PropagatedProblem) (cand : Candidate) (k : Nat)
    (c : Candidate) : Prop :=
  c.length = cand.length ∧ (∀ j, j < k → c.get? j = cand.get? j) ∧
    (∀ j, j < p.domains.length → ∃ v, c.get? j = some (some v) ∧ v ∈ valuesAt p j) ∧
    (∀ cns ∈ p.constraints, evalC c cns = some true)

theorem scope_mem_le_getLast {p : PropagatedProblem} (W : PPWF p)
    {c : Scope × Evaluation} (hc : c ∈ p.constraints) {l : Nat}
    (hl : c.1.getLast? = some l) : ∀ v ∈ c.1, v ≤ l :=
  chain_lt_le_getLast c.1 (W.scopes_strict c hc) l hl

theorem satUpTo_congr {p : PropagatedProblem} (W : PPWF p)
    {cand cand' : Candidate} {m : Nat} (h : SatUpTo p cand m)
    (hagree : ∀ j, j < m → cand'.get? j = cand.get? j) :
    SatUpTo p cand' m := by
  intro c hc l hl hlm
  rw [evalC_congr c (fun v hv =>
    hagree v (by have := scope_mem_le_getLast W hc hl v hv; omega))]
  exact h c hc l hl hlm

theorem reject?_false_sat {p : PropagatedProblem} (W : PPWF p)
    {cand : Candidate} {k : Nat} (hpre : BtPre p cand k)
    (hr : reject? p cand k = some false)
    (hsat : SatUpTo p cand (k - 1)) : SatUpTo p cand k := by
  rcases Nat.eq_zero_or_pos k with rfl | hk
  · intro c hc l hl hlm
    omega
  · unfold reject? at hr
    rw [if_neg (by omega)] at hr
    have hkn : k - 1 < p.domains.length := by
      have := hpre.2.1
      omega
    rw [W.vars_eq, get?_range, if_pos hkn] at hr
    intro c hc l hl hlm
    rcases Nat.lt_or_ge l (k - 1) with hlt | hge
    · exact hsat c hc l hl hlt
    · have hleq : l = k - 1 := by omega
      subst hleq
      exact rejectLoop_false_sat p.constraints hr c hc hl

theorem reject?_isSome {p : PropagatedProblem} (W : PPWF p)
    {cand : Candidate} {k : Nat} (hpre : BtPre p cand k) :
    ∃ b, reject? p cand k = some b := by
  rcases Nat.eq_zero_or_pos k with rfl | hk
  · exact ⟨false, rfl⟩
  · unfold reject?
    rw [if_neg (by omega)]
    have hkn : k - 1 < p.domains.length := by
      have := hpre.2.1
      omega
    rw [W.vars_eq, get?_range, if_pos hkn]
    apply rejectLoop_isSome
    intro c hc hl
    apply evalC_isSome
    intro v hv
    have hvle := scope_mem_le_getLast W hc hl v hv
    obtain ⟨u, hu, -⟩ := hpre.2.2.1 v (by omega)
    exact ⟨u, hu⟩

end Constraint

namespace Constraint

theorem accept?_eq {cand : Candidate} {v : Option Int}
    (h : cand.get? (cand.length - 1) = some v) : accept? cand = some v.isSome := by
  unfold accept?
  rw [h]

theorem accept?_nil : accept? ([] : Candidate) = none := rfl

theorem guard_false_of_slot {cand : Candidate} {n : Nat} (hlen : cand.length = n)
    (hn : 0 < n) (hslot : cand.get? (n - 1) = some none) :
    (cand.getLast?.elim false (fun x => x.isSome)) = false := by
  rw [List.getLast?_eq_get?, hlen, hslot]
  rfl

theorem first?_eq_assign (p : PropagatedProblem) (cand : Candidate) (k : Nat)
    {d : Domain} {v0 : Int}
    (hguard : (cand.getLast?.elim false (fun x => x.isSome)) = false)
    (hd : p.domains.get? k = some d) (hv : d.values.get? 0 = some v0) :
    first? p cand k =
      match setIdx? cand k (some v0) with
      | none => none
      | some cand1 => some (cand1, true) := by
  simp only [first?, hguard, hd, hv]
  rfl

theorem first?_eq_empty (p : PropagatedProblem) (cand : Candidate) (k : Nat)
    {d : Domain}
    (hguard : (cand.getLast?.elim false (fun x => x.isSome)) = false)
    (hd : p.domains.get? k = some d) (hv : d.values.get? 0 = none) :
    first? p cand k = none := by
  simp only [first?, hguard, hd, hv]
  rfl

theorem next?_eq_last (p : PropagatedProblem) (cand : Candidate) (k : Nat)
    {cv : Option Int} {d : Domain} (hc : cand.get? k = some cv)
    (hd : p.domains.get? k = some d) (heq : cv = d.values.getLast?) :
    next? p cand (k + 1) = some (cand, false) := by
  simp only [next?, Nat.add_sub_cancel, hc, hd]
  rw [if_pos heq]

theorem next?_eq_step (p : PropagatedProblem) (cand : Candidate) (k : Nat)
    {cv0 : Int} {d : Domain} (hc : cand.get? k = some (some cv0))
    (hd : p.domains.get? k = some d)
    (hne : (some cv0 : Option Int) ≠ d.values.getLast?) :
    next? p cand (k + 1) =
      match binarySearch d.values cv0 with
      | none => none
      | some i =>
        match d.values.get? (i + 1) with
        | none => none
        | some nv =>
          match setIdx? cand k (some nv) with
          | none => none
          | some cand1 => some (cand1, true) := by
  simp only [next?, Nat.add_sub_cancel, hc, hd]
  rw [if_neg hne]

end Constraint

namespace Constraint

theorem bt_post (p : PropagatedProblem) (W : PPWF p) :
    ∀ fuel : Nat,
      (∀ cand k res, BtPre p cand k → SatUpTo p cand (k - 1) →
          btRun p fuel cand k = some (some res) →
          (res.2 = false → PostFalse p cand k res.1) ∧
          (res.2 = true → PostTrue p cand k res.1)) ∧
      (∀ cand k res, LoopPre p cand k → SatUpTo p cand k →
          btLoop p fuel cand k = some (some res) →
          (res.2 = false → PostFalse p cand k res.1) ∧
          (res.2 = true → PostTrue p cand k res.1)) := by
  intro fuel
  induction fuel with
  | zero =>
    constructor
    · intro cand k res _ _ h
      simp [btRun] at h
    · intro cand k res _ _ h
      simp [btLoop] at h
  | succ fuel ih =>
    obtain ⟨ihR, ihL⟩ := ih
    constructor
    · intro cand k res hpre hsat h
      simp only [btRun] at h
      split at h
      · exact absurd h (by simp)
      · -- reject returned true
        simp only [Option.some.injEq] at h
        subst h
        refine ⟨fun _ => ⟨rfl, fun j _ => rfl, hpre.2.2.2⟩, fun hcon => ?_⟩
        simp at hcon
      · -- reject returned false
        rename_i hrej
        split at h
        · exact absurd h (by simp)
        · -- accept returned true
          rename_i hacc
          simp only [Option.some.injEq] at h
          subst h
          have hn : 0 < p.domains.length := by
            by_contra hcon
            have hc0 : cand = [] := by
              have hlen := hpre.1
              rw [← List.length_eq_zero]
              omega
            rw [hc0, accept?_nil] at hacc
            cases hacc
          have hkn : k = p.domains.length := by
            by_contra hcon
            have hklt : k < p.domains.length := by
              have := hpre.2.1
              omega
            have hslot := hpre.2.2.2 (p.domains.length - 1) (by omega) (by omega)
            rw [accept?_eq (v := none) (by rw [hpre.1]; exact hslot)] at hacc
            cases hacc
          have hsat2 : SatUpTo p cand k := reject?_false_sat W hpre hrej hsat
          refine ⟨fun hcon => by simp at hcon, fun _ => ?_⟩
          refine ⟨rfl, fun j _ => rfl, fun j hj => hpre.2.2.1 j (by omega), ?_⟩
          intro cns hc
          obtain ⟨l, hl, hlmem⟩ := getLast?_of_ne_nil (W.scopes_ne cns hc)
          have hln := W.scopes_lt cns hc l hlmem
          exact hsat2 cns hc l hl (by omega)
        · -- accept returned false
          rename_i hacc
          have hn : 0 < p.domains.length := by
            by_contra hcon
            have hc0 : cand = [] := by
              have hlen := hpre.1
              rw [← List.length_eq_zero]
              omega
            rw [hc0, accept?_nil] at hacc
            cases hacc
          have hklt : k < p.domains.length := by
            rcases Nat.lt_or_ge k p.domains.length with hlt | hge
            · exact hlt
            · exfalso
              have hkeq : k = p.domains.length := by
                have := hpre.2.1
                omega
              obtain ⟨v, hv, -⟩ := hpre.2.2.1 (p.domains.length - 1) (by omega)
              rw [accept?_eq (v := some v) (by rw [hpre.1]; exact hv)] at hacc
              cases hacc
          have hguard := guard_false_of_slot hpre.1 hn
            (hpre.2.2.2 (p.domains.length - 1) (by omega) (by omega))
          split at h
          · exact absurd h (by simp)
          · -- first returned (cand1, true): enter the loop
            rename_i cand1 hfst
            obtain ⟨d, hd⟩ := get?_isSome_of_lt (l := p.domains) hklt
            rcases hv0 : d.values.get? 0 with _ | v0
            · rw [first?_eq_empty p cand k hguard hd hv0] at hfst
              cases hfst
            · rw [first?_eq_assign p cand k hguard hd hv0] at hfst
              split at hfst
              · cases hfst
              · rename_i cand1x hset
                simp only [Option.some.injEq, Prod.mk.injEq] at hfst
                obtain ⟨rfl, -⟩ := hfst
                obtain ⟨hklen, rfl⟩ := setIdx?_eq_some.1 hset
                have hpre1 : LoopPre p (cand.set k (some v0)) k := by
                  refine ⟨by rw [List.length_set]; exact hpre.1, hklt, ?_, ?_⟩
                  · intro j hj
                    rcases Nat.lt_or_ge j k with hlt | hge
                    · obtain ⟨v, hv, hvm⟩ := hpre.2.2.1 j hlt
                      refine ⟨v, ?_, hvm⟩
                      rw [set_get?, if_neg (by omega)]
                      exact hv
                    · have hjk : j = k := by omega
                      subst hjk
                      refine ⟨v0, ?_, ?_⟩
                      · rw [set_get?, if_pos ⟨rfl, hklen⟩]
                      · unfold valuesAt
                        rw [hd]
                        exact List.get?_mem hv0
                  · intro j hj1 hj2
                    rw [set_get?, if_neg (by omega)]
                    exact hpre.2.2.2 j (by omega) hj2
                have hsat2 : SatUpTo p cand k := reject?_false_sat W hpre hrej hsat
                have hsat3 : SatUpTo p (cand.set k (some v0)) k := by
                  apply satUpTo_congr W hsat2
                  intro j hj
                  rw [set_get?, if_neg (by omega)]
                have hpost := ihL (cand.set k (some v0)) k res hpre1 hsat3 h
                constructor
                · intro hres
                  obtain ⟨hlen2, hunch, hclear⟩ := hpost.1 hres
                  refine ⟨by rw [hlen2, List.length_set], ?_, hclear⟩
                  intro j hj
                  rw [hunch j hj, set_get?, if_neg (by omega)]
                · intro hres
                  obtain ⟨hlen2, hunch, hass, hsatf⟩ := hpost.2 hres
                  refine ⟨by rw [hlen2, List.length_set], ?_, hass, hsatf⟩
                  intro j hj
                  rw [hunch j hj, set_get?, if_neg (by omega)]
          · -- first returned (cand1, false): contradicts the guard
            rename_i cand1 hfst
            obtain ⟨d, hd⟩ := get?_isSome_of_lt (l := p.domains) hklt
            rcases hv0 : d.values.get? 0 with _ | v0
            · rw [first?_eq_empty p cand k hguard hd hv0] at hfst
              cases hfst
            · rw [first?_eq_assign p cand k hguard hd hv0] at hfst
              split at hfst
              · cases hfst
              · simp at hfst
    · intro cand k res hpre hsat h
      simp only [btLoop] at h
      have hpreR : BtPre p cand (k + 1) := by
        refine ⟨hpre.1, by have := hpre.2.1; omega, ?_, ?_⟩
        · intro j hj
          exact hpre.2.2.1 j (by omega)
        · intro j hj1 hj2
          exact hpre.2.2.2 j (by omega) hj2
      have hsatR : SatUpTo p cand (k + 1 - 1) := by
        rw [Nat.add_sub_cancel]
        exact hsat
      split at h
      · exact absurd h (by simp)
      · exact absurd h (by simp)
      · -- btRun returned (cand2, true)
        rename_i cand2 hrun
        simp only [Option.some.injEq] at h
        subst h
        have hpost := (ihR cand (k + 1) (cand2, true) hpreR hsatR hrun).2 rfl
        refine ⟨fun hcon => by simp at hcon, fun _ => ?_⟩
        exact ⟨hpost.1, fun j hj => hpost.2.1 j (by omega), hpost.2.2.1, hpost.2.2.2⟩
      · -- btRun returned (cand2, false)
        rename_i cand2 hrun
        have hpostF := (ihR cand (k + 1) (cand2, false) hpreR hsatR hrun).1 rfl
        obtain ⟨hlen2, hunch2, hclear2⟩ := hpostF
        have hc2k : cand2.get? k = cand.get? k := hunch2 k (by omega)
        obtain ⟨cv0, hcv0, hcv0m⟩ := hpre.2.2.1 k (le_refl k)
        obtain ⟨d, hd⟩ := get?_isSome_of_lt (l := p.domains) hpre.2.1
        have hc2k2 : cand2.get? k = some (some cv0) := by rw [hc2k, hcv0]
        split at h
        · exact absurd h (by simp)
        · -- next returned (cand3, true)
          rename_i cand3 hnext
          by_cases hlast : (some cv0 : Option Int) = d.values.getLast?
          · rw [next?_eq_last p cand2 k hc2k2 hd hlast] at hnext
            simp at hnext
          · rw [next?_eq_step p cand2 k hc2k2 hd hlast] at hnext
            split at hnext
            · cases hnext
            · rename_i idx hbs
              split at hnext
              · cases hnext
              · rename_i nv hnv
                split at hnext
                · cases hnext
                · rename_i cand3x hset
                  simp only [Option.some.injEq, Prod.mk.injEq] at hnext
                  obtain ⟨rfl, -⟩ := hnext
                  obtain ⟨hklen2, rfl⟩ := setIdx?_eq_some.1 hset
                  have hpre3 : LoopPre p (cand2.set k (some nv)) k := by
                    refine ⟨by rw [List.length_set, hlen2]; exact hpre.1, hpre.2.1, ?_, ?_⟩
                    · intro j hj
                      rcases Nat.lt_or_ge j k with hlt | hge
                      · obtain ⟨v, hv, hvm⟩ := hpre.2.2.1 j (by omega)
                        refine ⟨v, ?_, hvm⟩
                        rw [set_get?, if_neg (by omega), hunch2 j (by omega)]
                        exact hv
                      · have hjk : j = k := by omega
                        subst hjk
                        refine ⟨nv, ?_, ?_⟩
                        · rw [set_get?, if_pos ⟨rfl, hklen2⟩]
                        · unfold valuesAt
                          rw [hd]
                          exact List.get?_mem hnv
                    · intro j hj1 hj2
                      rw [set_get?, if_neg (by omega)]
                      exact hclear2 j (by omega) hj2
                  have hsat3 : SatUpTo p (cand2.set k (some nv)) k := by
                    apply satUpTo_congr W hsat
                    intro j hj
                    rw [set_get?, if_neg (by omega)]
                    exact hunch2 j (by omega)
                  have hpost := ihL (cand2.set k (some nv)) k res hpre3 hsat3 h
                  constructor
                  · intro hres
                    obtain ⟨hlen3, hunch3, hclear3⟩ := hpost.1 hres
                    refine ⟨by rw [hlen3, List.length_set, hlen2], ?_, hclear3⟩
                    intro j hj
                    rw [hunch3 j hj, set_get?, if_neg (by omega)]
                    exact hunch2 j (by omega)
                  · intro hres
                    obtain ⟨hlen3, hunch3, hass3, hsat4⟩ := hpost.2 hres
                    refine ⟨by rw [hlen3, List.length_set, hlen2], ?_, hass3, hsat4⟩
                    intro j hj
                    rw [hunch3 j hj, set_get?, if_neg (by omega)]
                    exact hunch2 j (by omega)
        · -- next returned (cand3, false): loop exit, clear slot k
          rename_i cand3 hnext
          have hc3 : cand3 = cand2 := by
            by_cases hlast : (some cv0 : Option Int) = d.values.getLast?
            · rw [next?_eq_last p cand2 k hc2k2 hd hlast] at hnext
              simp only [Option.some.injEq, Prod.mk.injEq] at hnext
              exact hnext.1.symm
            · rw [next?_eq_step p cand2 k hc2k2 hd hlast] at hnext
              split at hnext
              · cases hnext
              · split at hnext
                · cases hnext
                · split at hnext
                  · cases hnext
                  · simp at hnext
          subst hc3
          rcases hset : setIdx? cand3 k none with _ | cand4
          · rw [hset] at h
            exact absurd h (by simp)
          · rw [hset] at h
            simp only [Option.some.injEq] at h
            subst h
            obtain ⟨hklen3, rfl⟩ := setIdx?_eq_some.1 hset
            refine ⟨fun _ => ?_, fun hcon => by simp at hcon⟩
            refine ⟨by rw [List.length_set, hlen2], ?_, ?_⟩
            · intro j hj
              rw [set_get?, if_neg (by omega)]
              exact hunch2 j (by omega)
            · intro j hj1 hj2
              rcases Nat.lt_or_ge j (k + 1) with hlt | hge
              · have hjk : j = k := by omega
                subst hjk
                rw [set_get?, if_pos ⟨rfl, hklen3⟩]
              · rw [set_get?, if_neg (by omega)]
                exact hclear2 j (by omega) hj2

end Constraint

namespace Constraint

theorem setIdx?_isSome {l : List α} {i : Nat} (v : α) (h : i < l.length) :
    setIdx? l i v = some (l.set i v) :=
  setIdx?_eq_some.2 ⟨h, rfl⟩

theorem bt_safe (p : PropagatedProblem) (W : PPWF p)
    (hdne : ∀ d ∈ p.domains, d.values ≠ []) :
    ∀ fuel : Nat,
      (∀ cand k, BtPre p cand k → SatUpTo p cand (k - 1) →
          0 < p.domains.length → btRun p fuel cand k ≠ some none) ∧
      (∀ cand k, LoopPre p cand k → SatUpTo p cand k →
          btLoop p fuel cand k ≠ some none) := by
  intro fuel
  induction fuel with
  | zero =>
    constructor
    · intro cand k _ _ _ hcon
      simp [btRun] at hcon
    · intro cand k _ _ hcon
      simp [btLoop] at hcon
  | succ fuel ih =>
    obtain ⟨ihR, ihL⟩ := ih
    constructor
    · intro cand k hpre hsat hn hcon
      simp only [btRun] at hcon
      split at hcon
      · rename_i hrej
        obtain ⟨b, hb⟩ := reject?_isSome W hpre
        rw [hb] at hrej
        cases hrej
      · simp at hcon
      · rename_i hrej
        split at hcon
        · rename_i hacc
          obtain ⟨v, hv⟩ := get?_isSome_of_lt
            (l := cand) (j := cand.length - 1) (by have := hpre.1; omega)
          rw [accept?_eq hv] at hacc
          cases hacc
        · simp at hcon
        · rename_i hacc
          have hklt : k < p.domains.length := by
            rcases Nat.lt_or_ge k p.domains.length with hlt | hge
            · exact hlt
            · exfalso
              obtain ⟨v, hv, -⟩ := hpre.2.2.1 (p.domains.length - 1) (by omega)
              rw [accept?_eq (v := some v) (by rw [hpre.1]; exact hv)] at hacc
              cases hacc
          have hguard := guard_false_of_slot hpre.1 hn
            (hpre.2.2.2 (p.domains.length - 1) (by omega) (by omega))
          obtain ⟨d, hd⟩ := get?_isSome_of_lt (l := p.domains) hklt
          have hdne2 : d.values ≠ [] := hdne d (List.get?_mem hd)
          obtain ⟨v0, hv0⟩ := get?_isSome_of_lt (l := d.values) (j := 0)
            (List.length_pos.2 hdne2)
          have hset2 := setIdx?_isSome (l := cand) (some v0)
            (by rw [hpre.1]; exact hklt)
          split at hcon
          · rename_i hfst
            rw [first?_eq_assign p cand k hguard hd hv0] at hfst
            split at hfst
            · rename_i heq
              rw [hset2] at heq
              cases heq
            · cases hfst
          · rename_i cand1 hfst
            rw [first?_eq_assign p cand k hguard hd hv0] at hfst
            split at hfst
            · cases hfst
            · rename_i cand1x hsetx
              simp only [Option.some.injEq, Prod.mk.injEq] at hfst
              obtain ⟨rfl, -⟩ := hfst
              obtain ⟨hklen, rfl⟩ := setIdx?_eq_some.1 hsetx
              have hpre1 : LoopPre p (cand.set k (some v0)) k := by
                refine ⟨by rw [List.length_set]; exact hpre.1, hklt, ?_, ?_⟩
                · intro j hj
                  rcases Nat.lt_or_ge j k with hlt | hge
                  · obtain ⟨v, hv, hvm⟩ := hpre.2.2.1 j hlt
                    refine ⟨v, ?_, hvm⟩
                    rw [set_get?, if_neg (by omega)]
                    exact hv
                  · have hjk : j = k := by omega
                    subst hjk
                    refine ⟨v0, ?_, ?_⟩
                    · rw [set_get?, if_pos ⟨rfl, hklen⟩]
                    · unfold valuesAt
                      rw [hd]
                      exact List.get?_mem hv0
                · intro j hj1 hj2
                  rw [set_get?, if_neg (by omega)]
                  exact hpre.2.2.2 j (by omega) hj2
              have hsat2 : SatUpTo p cand k := reject?_false_sat W hpre hrej hsat
              have hsat3 : SatUpTo p (cand.set k (some v0)) k := by
                apply satUpTo_congr W hsat2
                intro j hj
                rw [set_get?, if_neg (by omega)]
              exact ihL (cand.set k (some v0)) k hpre1 hsat3 hcon
          · rename_i cand1 hfst
            rw [first?_eq_assign p cand k hguard hd hv0] at hfst
            split at hfst
            · cases hfst
            · simp at hfst
    · intro cand k hpre hsat hcon
      simp only [btLoop] at hcon
      have hn : 0 < p.domains.length := by
        have := hpre.2.1
        omega
      have hpreR : BtPre p cand (k + 1) := by
        refine ⟨hpre.1, by have := hpre.2.1; omega, ?_, ?_⟩
        · intro j hj
          exact hpre.2.2.1 j (by omega)
        · intro j hj1 hj2
          exact hpre.2.2.2 j (by omega) hj2
      have hsatR : SatUpTo p cand (k + 1 - 1) := by
        rw [Nat.add_sub_cancel]
        exact hsat
      split at hcon
      · cases hcon
      · rename_i hrun
        exact ihR cand (k + 1) hpreR hsatR hn hrun
      · simp at hcon
      · rename_i cand2 hrun
        have hpostF := ((bt_post p W fuel).1 cand (k + 1) (cand2, false)
          hpreR hsatR hrun).1 rfl
        obtain ⟨hlen2, hunch2, hclear2⟩ := hpostF
        obtain ⟨cv0, hcv0, hcv0m⟩ := hpre.2.2.1 k (le_refl k)
        obtain ⟨d, hd⟩ := get?_isSome_of_lt (l := p.domains) hpre.2.1
        have hc2k2 : cand2.get? k = some (some cv0) := by
          rw [hunch2 k (by omega), hcv0]
        have hsorted : List.Sorted (· ≤ ·) d.values :=
          W.doms_sorted d (List.get?_mem hd)
        have hmem : cv0 ∈ d.values := by
          unfold valuesAt at hcv0m
          rw [hd] at hcv0m
          exact hcv0m
        split at hcon
        · rename_i hnext
          by_cases hlast : (some cv0 : Option Int) = d.values.getLast?
          · rw [next?_eq_last p cand2 k hc2k2 hd hlast] at hnext
            cases hnext
          · rw [next?_eq_step p cand2 k hc2k2 hd hlast] at hnext
            obtain ⟨i, hi, hig⟩ := binarySearch_finds hsorted hmem
            split at hnext
            · rename_i heq
              rw [hi] at heq
              cases heq
            · rename_i idx heq
              rw [hi] at heq
              simp only [Option.some.injEq] at heq
              subst heq
              split at hnext
              · rename_i heq2
                have hilen : i < d.values.length := (List.get?_eq_some.1 hig).1
                have hine : i + 1 < d.values.length := by
                  rcases Nat.lt_or_ge (i + 1) d.values.length with hlt | hge
                  · exact hlt
                  · exfalso
                    have hieq : i = d.values.length - 1 := by omega
                    apply hlast
                    rw [List.getLast?_eq_get?, ← hieq, hig]
                obtain ⟨nv, hnv⟩ := get?_isSome_of_lt hine
                rw [hnv] at heq2
                cases heq2
              · rename_i nv heq2
                split at hnext
                · rename_i heq3
                  rw [setIdx?_isSome (some nv) (by rw [hlen2, hpre.1]; exact hpre.2.1)] at heq3
                  cases heq3
                · cases hnext
        · rename_i cand3 hnext
          by_cases hlast : (some cv0 : Option Int) = d.values.getLast?
          · rw [next?_eq_last p cand2 k hc2k2 hd hlast] at hnext
            simp at hnext
          · rw [next?_eq_step p cand2 k hc2k2 hd hlast] at hnext
            split at hnext
            · cases hnext
            · split at hnext
              · cases hnext
              · rename_i nv hnv
                split at hnext
                · cases hnext
                · rename_i cand3x hsetx
                  simp only [Option.some.injEq, Prod.mk.injEq] at hnext
                  obtain ⟨rfl, -⟩ := hnext
                  obtain ⟨hklen2, rfl⟩ := setIdx?_eq_some.1 hsetx
                  have hpre3 : LoopPre p (cand2.set k (some nv)) k := by
                    refine ⟨by rw [List.length_set, hlen2]; exact hpre.1, hpre.2.1, ?_, ?_⟩
                    · intro j hj
                      rcases Nat.lt_or_ge j k with hlt | hge
                      · obtain ⟨v, hv, hvm⟩ := hpre.2.2.1 j (by omega)
                        refine ⟨v, ?_, hvm⟩
                        rw [set_get?, if_neg (by omega), hunch2 j (by omega)]
                        exact hv
                      · have hjk : j = k := by omega
                        subst hjk
                        refine ⟨nv, ?_, ?_⟩
                        · rw [set_get?, if_pos ⟨rfl, hklen2⟩]
                        · unfold valuesAt
                          rw [hd]
                          exact List.get?_mem hnv
                    · intro j hj1 hj2
                      rw [set_get?, if_neg (by omega)]
                      exact hclear2 j (by omega) hj2
                  have hsat3 : SatUpTo p (cand2.set k (some nv)) k := by
                    apply satUpTo_congr W hsat
                    intro j hj
                    rw [set_get?, if_neg (by omega)]
                    exact hunch2 j (by omega)
                  exact ihL (cand2.set k (some nv)) k hpre3 hsat3 hcon
        · rename_i cand3 hnext
          split at hcon
          · rename_i heq
            have hc3 : cand3 = cand2 := by
              by_cases hlast : (some cv0 : Option Int) = d.values.getLast?
              · rw [next?_eq_last p cand2 k hc2k2 hd hlast] at hnext
                simp only [Option.some.injEq, Prod.mk.injEq] at hnext
                exact hnext.1.symm
              · rw [next?_eq_step p cand2 k hc2k2 hd hlast] at hnext
                split at hnext
                · cases hnext
                · split at hnext
                  · cases hnext
                  · split at hnext
                    · cases hnext
                    · simp at hnext
            subst hc3
            rw [setIdx?_isSome none (by rw [hlen2, hpre.1]; exact hpre.2.1)] at heq
            cases heq
          · simp at hcon

end Constraint

namespace Constraint

/-- Four variables with domains `{0},{0},{0},{}` and one always-false
ternary constraint over `[0,1,2]`: the empty domain of variable 3 passes
propagation (no unary or binary constraints), and search never reaches
variable 3 because the ternary constraint rejects every prefix. -/
def rawC10 : RawProblem :=
  let p1 := RawProblem.new.add_var [0]
  let p2 := p1.1.add_var [0]
  let p3 := p2.1.add_var [0]
  let p4 := p3.1.add_var []
  (p4.1.add_constraint [0, 1, 2] (fun _ => false)).getD RawProblem.new

/-- The Propagated problem of `rawC10`'s pipeline. -/
def ppC10 : PropagatedProblem := (((pipeline rawC10 10).getD none).getD ⟨[], [], []⟩)

/-- C10 counterexample.  `ppC10` has an empty domain (variable 3), yet
`solve_backtracking` terminates normally with NoSolution (`some none` in
Rust terms), never reaching the out-of-range branch, because the
always-false constraint ending at variable 2 rejects every prefix: the
claim's "for a problem with some empty domain the out-of-range branch is
reached" is false. -/
theorem C10_counterexample_empty_domain_without_panic :
    ppC10.domains.map (fun d => d.values) = [[0], [0], [0], []] ∧
      solve_backtracking ppC10 30 = some (some none) :=
  ⟨rfl, rfl⟩

/-- C10 amended.  `solve_backtracking` panics (`some none`) for every
problem with zero variables, and for every problem whose first variable
has an empty domain; but an empty domain elsewhere need not be reached
(see the counterexample).  Under the precondition — at least one variable
and all domains non-empty — together with the structural invariants of a
propagated problem (dense variable ids, sorted domains, non-empty
strictly ascending in-range scopes), every index and unwrap is in range:
no panic for any fuel. -/
theorem C10_backtracking_panic_conditions :
    (∀ (p : PropagatedProblem) (fuel : Nat), p.vars = [] →
        solve_backtracking p (fuel + 1) = some none) ∧
    (∀ (p : PropagatedProblem) (fuel : Nat) (d : Domain), p.vars ≠ [] →
        p.domains.get? 0 = some d → d.values = [] →
        solve_backtracking p (fuel + 1) = some none) ∧
    (∀ (p : PropagatedProblem) (fuel : Nat), PPWF p → p.domains ≠ [] →
        (∀ d ∈ p.domains, d.values ≠ []) →
        solve_backtracking p fuel ≠ some none) := by
  refine ⟨?_, ?_, ?_⟩
  · intro p fuel hv
    unfold solve_backtracking
    rw [hv]
    simp only [List.length_nil, List.replicate]
    have hrun : btRun p (fuel + 1) [] 0 = some none := by
      simp only [btRun]
      rw [show reject? p [] 0 = some false from rfl, accept?_nil]
    rw [hrun]
  · intro p fuel d hv hd hval
    have hn : 0 < p.vars.length := List.length_pos.2 hv
    have hcand : ∀ j, j < p.vars.length →
        (List.replicate p.vars.length (none : Option Int)).get? j = some none := by
      intro j hj
      rw [get?_replicate, if_pos hj]
    have hlen : (List.replicate p.vars.length (none : Option Int)).length =
        p.vars.length := List.length_replicate _ _
    have hrun : btRun p (fuel + 1) (List.replicate p.vars.length none) 0 =
        some none := by
      simp only [btRun]
      rw [show reject? p (List.replicate p.vars.length none) 0 = some false from rfl]
      rw [accept?_eq (v := none) (by rw [hlen]; exact hcand _ (by omega))]
      have hguard : ((List.replicate p.vars.length (none : Option Int)).getLast?.elim
          false (fun x => x.isSome)) = false :=
        guard_false_of_slot hlen hn (hcand _ (by omega))
      rw [first?_eq_empty p _ 0 hguard hd (by rw [hval]; rfl)]
      rfl
    simp only [solve_backtracking]
    rw [hrun]
  · intro p fuel W hdom hdne hcon
    simp only [solve_backtracking] at hcon
    have hn : 0 < p.domains.length := List.length_pos.2 hdom
    have hlen : (List.replicate p.vars.length (none : Option Int)).length =
        p.domains.length := by
      rw [List.length_replicate, W.vars_eq, List.length_range]
    have hpre : BtPre p (List.replicate p.vars.length none) 0 := by
      refine ⟨hlen, by omega, fun j hj => by omega, fun j hj1 hj2 => ?_⟩
      rw [get?_replicate, if_pos (by rw [W.vars_eq, List.length_range]; exact hj2)]
    have hsat : SatUpTo p (List.replicate p.vars.length none) 0 := by
      intro c hc l hl hlm
      omega
    have hsafe := ((bt_safe p W hdne fuel).1
      (List.replicate p.vars.length none) 0 hpre hsat hn)
    rcases hb : btRun p fuel (List.replicate p.vars.length none) 0 with _ | ob
    · rw [hb] at hcon
      cases hcon
    · rw [hb] at hcon
      rcases ob with _ | res
      · exact hsafe hb
      · rcases res with ⟨c, b⟩
        cases b <;> simp at hcon

/-- A one-variable satisfiable problem used as concrete witness input. -/
def ppWit : PropagatedProblem := ⟨[0], [⟨0, [7]⟩], []⟩

/-- Witness for C10's amended theorem: the zero-variable problem panics,
and the well-formed one-variable problem does not. -/
theorem C10_backtracking_panic_conditions_witness :
    solve_backtracking (⟨[], [], []⟩ : PropagatedProblem) 1 = some none ∧
      solve_backtracking ppWit 5 ≠ some none := by
  have W : PPWF ppWit := by
    refine ⟨rfl, ?_, ?_, ?_, ?_⟩
    · intro c hc
      exact absurd hc (by simp [ppWit])
    · intro c hc
      exact absurd hc (by simp [ppWit])
    · intro c hc
      exact absurd hc (by simp [ppWit])
    · intro d hd
      simp only [ppWit, List.mem_singleton] at hd
      rw [hd]
      simp
  constructor
  · exact C10_backtracking_panic_conditions.1 ⟨[], [], []⟩ 0 rfl
  · refine C10_backtracking_panic_conditions.2.2 ppWit 5 W (by simp [ppWit]) ?_
    intro d hd
    simp only [ppWit, List.mem_singleton] at hd
    rw [hd]
    simp

/-- One variable with domain `{0}` and an always-false unary constraint:
node consistency empties the domain, nothing detects it, and the searches
then disagree. -/
def rawC3 : RawProblem :=
  let p1 := RawProblem.new.add_var [0]
  (p1.1.add_constraint [0] (fun _ => false)).getD RawProblem.new

/-- The Propagated problem of `rawC3`'s pipeline. -/
def ppC3 : PropagatedProblem := (((pipeline rawC3 10).getD none).getD ⟨[], [], []⟩)

/-- C3.  On the pipeline output for `rawC3` — a Propagated problem whose
only domain was emptied by node consistency and not detected (see C4) —
`solve_backtracking` panics (`first` indexes `values[0]` of the empty
domain; modelled `some none`), while `solve_cbj` returns NoSolution
(`some (some none)`): the two searches do not agree as the claim states.
The claim is the spec's intent (its section 7: both report their result
as ordinary values, never a panic); the undetected empty domain is the
code's slip, so this is recorded as a code bug, witnessed by evaluating
both searches. -/
theorem C3_searches_disagree_on_empty_domain :
    ppC3.domains.map (fun d => d.values) = [[]] ∧
      solve_backtracking ppC3 10 = some none ∧
      solve_cbj ppC3 10 = some (some none) :=
  ⟨rfl, rfl, rfl⟩

end Constraint

namespace Constraint

/-- C9.  One iteration of `solve_cbj`'s loop at a dead end: the working
domain of the current variable `i` is exhausted (`select_val_cbj` returned
no value, leaving the updated working domain, the grown conflict set
`conf1` and the trial candidate `vals1`).  Then: if `i`'s conflict set is
empty the search returns NoSolution; otherwise the search continues with
current variable `j = max (conflict set of i)` — so the next value is
selected at `j`, and the variables strictly between `j` and `i` are not
re-examined before `j` receives a new value: the new state differs only at
`i` (whose slot is cleared and whose domain copy and conflict set are
written back) and at `j` (whose conflict set becomes the merge
`(conf_set[j] ∪ conf_set[i]) \ {j}`). -/
theorem C9_cbj_dead_end_backjump (p : PropagatedProblem) (n : Nat)
    (st : CbjState) (cd cd1 : List Int) (conf conf1 : Finset Nat)
    (vals1 : Candidate) (hin : st.i < n)
    (hcd : st.currDomain.get? st.i = some cd)
    (hconf : st.confSet.get? st.i = some conf)
    (hvlen : st.i < vals1.length)
    (hsel : selectValCbj? p st.i (cd.length + 1) cd conf st.vals =
      some (cd1, conf1, vals1, none)) :
    (conf1 = ∅ → cbjStep p n st = some (Sum.inr none)) ∧
    (∀ hne : conf1.Nonempty, ∀ confm : Finset Nat,
      (st.confSet.set st.i conf1).get? (conf1.max' hne) = some confm →
      conf1.max' hne < st.confSet.length →
      cbjStep p n st = some (Sum.inl
        ⟨conf1.max' hne, vals1.set st.i none, st.currDomain.set st.i cd1,
          (st.confSet.set st.i conf1).set (conf1.max' hne)
            ((confm ∪ conf1).erase (conf1.max' hne))⟩) ∧
      conf1.max' hne ∈ conf1 ∧ (∀ z ∈ conf1, z ≤ conf1.max' hne)) := by
  have hlcd : st.i < st.currDomain.length := (List.get?_eq_some.1 hcd).1
  have hlcf : st.i < st.confSet.length := (List.get?_eq_some.1 hconf).1
  have hset1 := setIdx?_isSome (l := st.currDomain) cd1 hlcd
  have hset2 := setIdx?_isSome (l := st.confSet) conf1 hlcf
  have hset3 := setIdx?_isSome (l := vals1) (none : Option Int) hvlen
  constructor
  · intro hempty
    have hne : ¬ conf1.Nonempty := by
      rw [hempty]
      exact Finset.not_nonempty_empty
    simp only [cbjStep, if_pos hin, hcd, hconf, hsel, hset1, hset2, hset3]
    rw [dif_neg hne]
  · intro hne confm hconfm hmlen
    have hset4 := setIdx?_isSome (l := st.confSet.set st.i conf1)
      ((confm ∪ conf1).erase (conf1.max' hne))
      (by rw [List.length_set]; exact hmlen)
    refine ⟨?_, Finset.max'_mem conf1 hne, fun z hz => Finset.le_max' conf1 z hz⟩
    simp only [cbjStep, if_pos hin, hcd, hconf, hsel, hset1, hset2, hset3]
    rw [dif_pos hne]
    simp only [hconfm, hset4]

end Constraint

namespace Constraint

/-- A two-variable problem with an always-false binary constraint, used to
exercise the CBJ dead end concretely. -/
def p9 : PropagatedProblem := ⟨[0, 1], [⟨0, [0]⟩, ⟨1, [5]⟩],
  [([0, 1], fun _ => false)]⟩

/-- A CBJ state at variable 1 with variable 0 committed to value 0. -/
def st9 : CbjState := ⟨1, [some 0, none], [[], [5]], [∅, ∅]⟩

/-- Witness for C9 at the concrete dead end of `p9`: variable 1 exhausts
its working domain with conflict set `{0}`, and the step jumps back to
variable 0 with the merged conflict set. -/
theorem C9_cbj_dead_end_backjump_witness :
    cbjStep p9 2 st9 = some (Sum.inl
      ⟨0, [some 0, none], [[], []],
        [((∅ ∪ {0} : Finset Nat)).erase 0, {0}]⟩) ∧
      (0 : Nat) ∈ ({0} : Finset Nat) := by
  have hne : ({0} : Finset Nat).Nonempty := ⟨0, by decide⟩
  have hmax : ({0} : Finset Nat).max' hne = 0 := Finset.max'_singleton 0
  have hmlen : ({0} : Finset Nat).max' hne < st9.confSet.length := by
    rw [hmax]
    decide
  have hconfm : (st9.confSet.set 1 {0}).get? (({0} : Finset Nat).max' hne) =
      some ∅ := by
    rw [hmax]
    rfl
  have h := (C9_cbj_dead_end_backjump p9 2 st9 [5] [] ∅ {0} [some 0, some 5]
    (by decide) rfl rfl (by decide) rfl).2 hne ∅ hconfm hmlen
  obtain ⟨h1, h2, -⟩ := h
  rw [hmax] at h1
  exact ⟨h1, h2⟩

end Constraint

namespace Constraint

theorem set_of_get? {l : List α} : ∀ {i : Nat} {v : α},
    l.get? i = some v → l.set i v = l := by
  induction l with
  | nil => intro i v h; cases h
  | cons a t ih =>
    intro i v h
    cases i with
    | zero =>
      simp only [List.get?] at h
      cases h
      rfl
    | succ i =>
      simp only [List.get?] at h
      simp only [List.set]
      rw [ih h]

theorem mem_eraseP_of_pred_false {pred : α → Bool} {e : α} :
    ∀ {m : List α}, e ∈ m → pred e = false → e ∈ m.eraseP pred := by
  intro m
  induction m with
  | nil => intro h; cases h
  | cons a t ih =>
    intro hmem hpred
    rcases List.mem_cons.1 hmem with rfl | hmem
    · rw [List.eraseP_cons, hpred]
      simp only [cond_false]
      exact List.mem_cons_self _ _
    · rw [List.eraseP_cons]
      cases hpa : pred a
      · simp only [cond_false]
        exact List.mem_cons_of_mem a (ih hmem hpred)
      · simp only [cond_true]
        exact hmem

theorem lookupScope_erase_ne {m : List (Scope × Evaluation)} {s s' : Scope}
    (hne : s ≠ s') : lookupScope (eraseScope m s') s = lookupScope m s := by
  induction m with
  | nil => rfl
  | cons e t ih =>
    unfold eraseScope at *
    unfold lookupScope at *
    rw [List.eraseP_cons]
    cases hkey : (e.1 == s')
    · simp only [cond_false, List.find?_cons]
      cases hfind : (e.1 == s)
      · simpa [hfind] using ih
      · simp [hfind]
    · have hes : e.1 = s' := by simpa using hkey
      have hfind : (e.1 == s) = false := by
        simp only [beq_eq_false_iff_ne, ne_eq]
        rw [hes]
        exact fun hc => hne hc.symm
      simp only [cond_true, List.find?_cons, hfind, cond_false]

theorem lookupScope_append {m m' : List (Scope × Evaluation)} {s : Scope} :
    lookupScope (m ++ m') s =
      match lookupScope m s with
      | some e => some e
      | none => lookupScope m' s := by
  induction m with
  | nil => rfl
  | cons e t ih =>
    unfold lookupScope at *
    simp only [List.cons_append, List.find?]
    cases hfind : (e.1 == s)
    · exact ih
    · rfl

theorem lookupScope_mem {m : List (Scope × Evaluation)} {s : Scope}
    {E : Evaluation} (h : lookupScope m s = some E) : (s, E) ∈ m := by
  unfold lookupScope at h
  rcases hf : m.find? (fun p => p.1 == s) with _ | e
  · rw [hf] at h
    cases h
  · rw [hf] at h
    simp only [Option.map_some', Option.some.injEq] at h
    have hmem := List.mem_of_find?_eq_some hf
    have hkey := List.find?_some hf
    simp only [beq_iff_eq] at hkey
    have : e = (s, E) := by
      rcases e with ⟨s0, E0⟩
      simp only at hkey h
      rw [hkey, h]
    rw [← this]
    exact hmem

theorem lookupScope_eq_none {m : List (Scope × Evaluation)} {s : Scope}
    (h : ∀ e ∈ m, e.1 ≠ s) : lookupScope m s = none := by
  unfold lookupScope
  rw [List.find?_eq_none.2 (fun e he => by simpa using h e he)]
  rfl

theorem getD_eq_of_get?' {l : List α} {m : Nat} {v d : α}
    (h : l.get? m = some v) : l.getD m d = v := by
  unfold List.getD
  rw [List.get?_eq_getElem?] at h
  simp [h]

theorem range_getD {n a : Nat} (h : a < n) : (List.range n).getD a 0 = a :=
  getD_eq_of_get?' (by rw [get?_range, if_pos h])

theorem collectAssign_get? :
    ∀ {cand : Candidate} {l : List Int}, collectAssign cand = some l →
      l.length = cand.length ∧
        ∀ j v, cand.get? j = some (some v) → l.get? j = some v := by
  intro cand
  induction cand with
  | nil =>
    intro l h
    cases h
    exact ⟨rfl, fun j v hj => by cases hj⟩
  | cons a t ih =>
    intro l h
    cases a with
    | none => cases h
    | some v0 =>
      simp only [collectAssign] at h
      rcases ht : collectAssign t with _ | l'
      · rw [ht] at h
        cases h
      · rw [ht] at h
        simp only [Option.map_some', Option.some.injEq] at h
        subst h
        obtain ⟨hlen, hget⟩ := ih ht
        refine ⟨by simp [hlen], ?_⟩
        intro j v hj
        cases j with
        | zero =>
          simp only [List.get?] at hj
          cases hj
          rfl
        | succ j =>
          simp only [List.get?] at hj
          exact hget j v hj

theorem collectAssign_isSome {cand : Candidate}
    (h : ∀ j, j < cand.length → ∃ v, cand.get? j = some (some v)) :
    ∃ l, collectAssign cand = some l := by
  induction cand with
  | nil => exact ⟨[], rfl⟩
  | cons a t ih =>
    obtain ⟨v, hv⟩ := h 0 (by simp)
    simp only [List.get?] at hv
    cases hv
    obtain ⟨l', hl'⟩ := ih (fun j hj => by
      obtain ⟨v, hv⟩ := h (j + 1) (by simpa using Nat.succ_lt_succ hj)
      exact ⟨v, hv⟩)
    exact ⟨v :: l', by simp [collectAssign, hl']⟩

theorem collectVals_eq_map {cand : Candidate} {l : List Int} :
    ∀ (s : Scope),
      (∀ v ∈ s, ∃ u, cand.get? v = some (some u) ∧ l.getD v 0 = u) →
      collectVals cand s = some (s.map (fun v => l.getD v 0))
  | [], _ => rfl
  | v :: t, h => by
    obtain ⟨u, hu, hud⟩ := h v (by simp)
    have hrest := collectVals_eq_map t (fun w hw => h w (by simp [hw]))
    simp only [collectVals, List.map_cons]
    rw [hu, hrest, hud]
    rfl

end Constraint

namespace Constraint

/-- Unique scope keys, the `HashMap` invariant of the association list. -/
def UniqueKeys (m : List (Scope × Evaluation)) : Prop :=
  List.Pairwise (fun a b => a.1 ≠ b.1) m

theorem erase_keys_ne {m : List (Scope × Evaluation)} {s : Scope}
    (hu : UniqueKeys m) : ∀ e ∈ eraseScope m s, e.1 ≠ s := by
  induction m with
  | nil => intro e he; cases he
  | cons a t ih =>
    rw [UniqueKeys, List.pairwise_cons] at hu
    intro e he
    unfold eraseScope at he
    rw [List.eraseP_cons] at he
    rcases hkey : (a.1 == s) with _ | _
    · rw [hkey] at he
      simp only [cond_false] at he
      rcases List.mem_cons.1 he with rfl | he
      · simpa using hkey
      · exact ih hu.2 e he
    · rw [hkey] at he
      simp only [cond_true] at he
      have has : a.1 = s := by simpa using hkey
      intro hes
      exact hu.1 e he (by rw [hes, has])

theorem uniqueKeys_eraseScope {m : List (Scope × Evaluation)} {s : Scope}
    (hu : UniqueKeys m) : UniqueKeys (eraseScope m s) :=
  List.Pairwise.sublist (List.eraseP_sublist m) hu

theorem lookup_none_keys {m : List (Scope × Evaluation)} {s : Scope}
    (h : lookupScope m s = none) : ∀ e ∈ m, e.1 ≠ s := by
  unfold lookupScope at h
  rcases hf : m.find? (fun p => p.1 == s) with _ | e0
  · intro e he hes
    have := List.find?_eq_none.1 hf e he
    simp [hes] at this
  · rw [hf] at h
    cases h

theorem lookup_erase_append_self {m : List (Scope × Evaluation)} {s : Scope}
    (hu : UniqueKeys m) (E' : Evaluation) :
    lookupScope (eraseScope m s ++ [(s, E')]) s = some E' := by
  rw [lookupScope_append,
    lookupScope_eq_none (fun e he => erase_keys_ne hu e he)]
  unfold lookupScope
  simp [List.find?]

theorem lookup_append_single_self {m : List (Scope × Evaluation)} {s : Scope}
    (h : lookupScope m s = none) (E' : Evaluation) :
    lookupScope (m ++ [(s, E')]) s = some E' := by
  rw [lookupScope_append, h]
  unfold lookupScope
  simp [List.find?]

theorem normStep_uniqueKeys {m : List (Scope × Evaluation)} {c : Cstr}
    (hu : UniqueKeys m) : UniqueKeys (normStep m c) := by
  unfold normStep
  rcases hl : lookupScope m c.scope with _ | curr
  · rw [UniqueKeys, List.pairwise_append]
    refine ⟨hu, List.pairwise_singleton _ _, ?_⟩
    intro a ha b hb
    rw [List.mem_singleton] at hb
    subst hb
    exact lookup_none_keys hl a ha
  · rw [UniqueKeys, List.pairwise_append]
    refine ⟨uniqueKeys_eraseScope hu, List.pairwise_singleton _ _, ?_⟩
    intro a ha b hb
    rw [List.mem_singleton] at hb
    subst hb
    exact erase_keys_ne hu a ha

theorem normStep_origin {m : List (Scope × Evaluation)} {c : Cstr} :
    ∀ e ∈ normStep m c, e ∈ m ∨ e.1 = c.scope := by
  unfold normStep
  rcases hl : lookupScope m c.scope with _ | curr
  · intro e he
    rcases List.mem_append.1 he with he | he
    · exact Or.inl he
    · rw [List.mem_singleton] at he
      subst he
      exact Or.inr rfl
  · intro e he
    rcases List.mem_append.1 he with he | he
    · exact Or.inl ((List.eraseP_sublist m).subset he)
    · rw [List.mem_singleton] at he
      subst he
      exact Or.inr rfl

theorem normStep_stable {m : List (Scope × Evaluation)} {c : Cstr} {s : Scope}
    {E : Evaluation} {Q : List Int → Prop} (hu : UniqueKeys m)
    (hl : lookupScope m s = some E) (himp : ∀ vs, E vs = true → Q vs) :
    ∃ E', lookupScope (normStep m c) s = some E' ∧
      ∀ vs, E' vs = true → Q vs := by
  by_cases hsc : c.scope = s
  · subst hsc
    unfold normStep
    rw [hl]
    refine ⟨_, lookup_erase_append_self hu _, ?_⟩
    intro vs hvs
    rw [Bool.and_eq_true] at hvs
    exact himp vs hvs.1
  · unfold normStep
    rcases hl2 : lookupScope m c.scope with _ | curr
    · refine ⟨E, ?_, himp⟩
      rw [lookupScope_append, hl]
    · refine ⟨E, ?_, himp⟩
      rw [lookupScope_append,
        lookupScope_erase_ne (fun h => hsc h.symm), hl]

theorem normFold_stable {s : Scope} {Q : List Int → Prop} :
    ∀ (cs : List Cstr) (m : List (Scope × Evaluation)) (E : Evaluation),
      UniqueKeys m → lookupScope m s = some E →
      (∀ vs, E vs = true → Q vs) →
      ∃ E', lookupScope (cs.foldl normStep m) s = some E' ∧
        ∀ vs, E' vs = true → Q vs
  | [], m, E, _, hl, himp => ⟨E, hl, himp⟩
  | c :: rest, m, E, hu, hl, himp => by
    obtain ⟨E1, hl1, himp1⟩ := normStep_stable (c := c) hu hl himp
    exact normFold_stable rest (normStep m c) E1 (normStep_uniqueKeys hu) hl1 himp1

theorem normFold_uniqueKeys :
    ∀ (cs : List Cstr) (m : List (Scope × Evaluation)), UniqueKeys m →
      UniqueKeys (cs.foldl normStep m)
  | [], _, hu => hu
  | c :: rest, m, hu => normFold_uniqueKeys rest _ (normStep_uniqueKeys hu)

theorem normFold_origin :
    ∀ (cs : List Cstr) (m : List (Scope × Evaluation)),
      ∀ e ∈ cs.foldl normStep m, e ∈ m ∨ ∃ c ∈ cs, c.scope = e.1
  | [], _, e, he => Or.inl he
  | c :: rest, m, e, he => by
    rcases normFold_origin rest (normStep m c) e he with h1 | ⟨c', hc', hcs⟩
    · rcases normStep_origin e h1 with h2 | h2
      · exact Or.inl h2
      · exact Or.inr ⟨c, List.mem_cons_self _ _, h2.symm⟩
    · exact Or.inr ⟨c', List.mem_cons_of_mem _ hc', hcs⟩

theorem normFold_sat :
    ∀ (cs : List Cstr) (m : List (Scope × Evaluation)), UniqueKeys m →
      ∀ c ∈ cs, ∃ E, lookupScope (cs.foldl normStep m) c.scope = some E ∧
        ∀ vs, E vs = true → c.evaluate vs = true
  | [], _, _, c, hc => by cases hc
  | c0 :: rest, m, hu, c, hc => by
    rcases List.mem_cons.1 hc with rfl | hc
    · have hbase : ∃ E0, lookupScope (normStep m c) c.scope = some E0 ∧
          ∀ vs, E0 vs = true → c.evaluate vs = true := by
        unfold normStep
        rcases hl : lookupScope m c.scope with _ | curr
        · exact ⟨c.evaluate, lookup_append_single_self hl _, fun vs h => h⟩
        · refine ⟨_, lookup_erase_append_self hu _, ?_⟩
          intro vs hvs
          rw [Bool.and_eq_true] at hvs
          exact hvs.2
      obtain ⟨E0, hl0, himp0⟩ := hbase
      exact normFold_stable rest (normStep m c) E0 (normStep_uniqueKeys hu) hl0 himp0
    · exact normFold_sat rest (normStep m c0) (normStep_uniqueKeys hu) c hc

end Constraint

namespace Constraint

theorem nodeStep_constraints_sublist (st : NormalizedProblem) (i : Nat) :
    (nodeStep st i).constraints.Sublist st.constraints := by
  simp only [nodeStep]
  split
  · exact List.eraseP_sublist _
  · exact List.Sublist.refl _

theorem foldl_node_constraints_sublist :
    ∀ (l : List Nat) (st : NormalizedProblem),
      (l.foldl nodeStep st).constraints.Sublist st.constraints
  | [], _ => List.Sublist.refl _
  | a :: t, st =>
    (foldl_node_constraints_sublist t (nodeStep st a)).trans
      (nodeStep_constraints_sublist st a)

theorem nodeStep_keeps {st : NormalizedProblem} {i : Nat}
    {e : Scope × Evaluation} (he : e ∈ st.constraints)
    (hlen : e.1.length ≠ 1) : e ∈ (nodeStep st i).constraints := by
  simp only [nodeStep]
  split
  · apply mem_eraseP_of_pred_false he
    rw [beq_eq_false_iff_ne]
    intro hc
    apply hlen
    rw [hc]
    rfl
  · exact he

theorem foldl_node_keeps :
    ∀ (l : List Nat) (st : NormalizedProblem) (e : Scope × Evaluation),
      e ∈ st.constraints → e.1.length ≠ 1 →
      e ∈ (l.foldl nodeStep st).constraints
  | [], _, _, he, _ => he
  | a :: t, st, e, he, hlen =>
    foldl_node_keeps t (nodeStep st a) e (nodeStep_keeps he hlen) hlen

theorem nodeStep_uniqueKeys {st : NormalizedProblem} {i : Nat}
    (hu : UniqueKeys st.constraints) : UniqueKeys (nodeStep st i).constraints :=
  List.Pairwise.sublist (nodeStep_constraints_sublist st i) hu

theorem nodeStep_dvals_ne {st : NormalizedProblem} {i a : Nat} (h : a ≠ i) :
    dvals (nodeStep st i) a = dvals st a := by
  simp only [nodeStep]
  split
  · unfold dvals
    simp only
    rw [modifyIdx_get?, if_neg h]
  · rfl

theorem foldl_node_dvals_notin :
    ∀ (t : List Nat) (st : NormalizedProblem) (a : Nat), a ∉ t →
      dvals (t.foldl nodeStep st) a = dvals st a
  | [], _, _, _ => rfl
  | b :: t, st, a, h => by
    have h1 : a ∉ t := fun hc => h (List.mem_cons_of_mem b hc)
    have h2 : a ≠ b := fun hc => h (by rw [hc]; exact List.mem_cons_self _ _)
    rw [List.foldl_cons, foldl_node_dvals_notin t (nodeStep st b) a h1,
      nodeStep_dvals_ne h2]

theorem node_unary_prop (n : Nat) :
    ∀ (l : List Nat) (st : NormalizedProblem), st.vars = List.range n →
      l.Nodup → (∀ w ∈ l, w < n) →
      ∀ v ∈ l, ∀ E, lookupScope st.constraints [v] = some E →
        ∀ x ∈ dvals (l.foldl nodeStep st) v, E [x] = true
  | [], _, _, _, _, v, hv, _, _, _, _ => by cases hv
  | a :: t, st, hvars, hnodup, hlt, v, hv, E, hE, x, hx => by
    rw [List.nodup_cons] at hnodup
    rcases List.mem_cons.1 hv with rfl | hv
    · -- v is processed now
      have hva : st.vars.getD v 0 = v := by
        rw [hvars]
        exact range_getD (hlt v (List.mem_cons_self _ _))
      rw [List.foldl_cons, foldl_node_dvals_notin t (nodeStep st v) v hnodup.1]
        at hx
      simp only [nodeStep, hva, hE] at hx
      unfold dvals at hx
      simp only [modifyIdx_get?, if_pos rfl] at hx
      rcases hdv : st.domains.get? v with _ | d
      · rw [hdv] at hx
        cases hx
      · rw [hdv] at hx
        simp only [Option.map_some', Option.getD_some] at hx
        exact (List.mem_filter.1 hx).2
    · -- v is processed later
      have ha : a < n := hlt a (List.mem_cons_self _ _)
      have hva : st.vars.getD a 0 = a := by
        rw [hvars]
        exact range_getD ha
      have hav : v ≠ a := fun hc => hnodup.1 (hc ▸ hv)
      have hE1 : lookupScope (nodeStep st a).constraints [v] = some E := by
        simp only [nodeStep, hva]
        split
        · rw [lookupScope_erase_ne (by simpa using hav)]
          exact hE
        · exact hE
      have hvars1 : (nodeStep st a).vars = List.range n := by
        rw [nodeStep_vars]
        exact hvars
      exact node_unary_prop n t (nodeStep st a) hvars1 hnodup.2
        (fun w hw => hlt w (List.mem_cons_of_mem a hw)) v hv E hE1 x
        (by rw [List.foldl_cons] at hx; exact hx)

theorem node_removes_unary (n : Nat) :
    ∀ (l : List Nat) (st : NormalizedProblem), st.vars = List.range n →
      UniqueKeys st.constraints → (∀ w ∈ l, w < n) →
      ∀ v ∈ l, ∀ e ∈ (l.foldl nodeStep st).constraints, e.1 ≠ [v]
  | [], _, _, _, _, v, hv, _, _ => by cases hv
  | a :: t, st, hvars, hu, hlt, v, hv, e, he => by
    have ha : a < n := hlt a (List.mem_cons_self _ _)
    have hva : st.vars.getD a 0 = a := by
      rw [hvars]
      exact range_getD ha
    rcases List.mem_cons.1 hv with rfl | hv
    · -- key [v] is erased now and never re-added
      have hnokey : ∀ e1 ∈ (nodeStep st v).constraints, e1.1 ≠ [v] := by
        intro e1 he1
        simp only [nodeStep, hva] at he1
        rcases hl : lookupScope st.constraints [v] with _ | E
        · rw [hl] at he1
          exact lookup_none_keys hl e1 he1
        · rw [hl] at he1
          exact erase_keys_ne hu e1 he1
      rw [List.foldl_cons] at he
      exact hnokey e ((foldl_node_constraints_sublist t (nodeStep st v)).subset he)
    · have hvars1 : (nodeStep st a).vars = List.range n := by
        rw [nodeStep_vars]
        exact hvars
      exact node_removes_unary n t (nodeStep st a) hvars1 (nodeStep_uniqueKeys hu)
        (fun w hw => hlt w (List.mem_cons_of_mem a hw)) v hv e
        (by rw [List.foldl_cons] at he; exact he)

end Constraint

namespace Constraint

theorem cmpRev_cons_ne_gt {x y : Nat} {ta tb : List Nat}
    (h : cmpRev (x :: ta) (y :: tb) ≠ .gt) : x ≤ y := by
  simp only [cmpRev] at h
  by_cases hxy : x = y
  · omega
  · rw [if_neg hxy] at h
    rcases Nat.lt_trichotomy x y with hl | he | hg
    · omega
    · exact absurd he hxy
    · exact absurd (Nat.compare_eq_gt.2 hg) h

theorem cmpScope_last_le {a b : Scope} (ha : a ≠ []) (hb : b ≠ [])
    (h : cmpScope a b ≠ .gt) {la lb : Nat} (hla : a.getLast? = some la)
    (hlb : b.getLast? = some lb) : la ≤ lb := by
  unfold cmpScope at h
  rcases har : a.reverse with _ | ⟨x, ta⟩
  · exact absurd (by simpa using congrArg List.reverse har) ha
  · rcases hbr : b.reverse with _ | ⟨y, tb⟩
    · exact absurd (by simpa using congrArg List.reverse hbr) hb
    · rw [har, hbr] at h
      have hx : x = la := by
        have := List.head?_reverse a
        rw [har, hla] at this
        simpa using this
      have hy : y = lb := by
        have := List.head?_reverse b
        rw [hbr, hlb] at this
        simpa using this
      subst hx
      subst hy
      exact cmpRev_cons_ne_gt h

theorem sbcLoop_some_mem {vals : Candidate} {i k : Nat} {s : Scope} :
    ∀ cs : List (Scope × Evaluation), sbcLoop vals i k cs = some (some s) →
      ∃ c ∈ cs, c.1 = s ∧ c.1.getLast? = some i
  | [], h => by cases h
  | c0 :: rest, h => by
    simp only [sbcLoop] at h
    split at h
    · cases h
    · rename_i lastId hlast
      split at h
      · cases h
      · split at h
        · rename_i hmatch
          split at h
          · cases h
          · split at h
            · obtain ⟨c, hc, hcs, hcl⟩ := sbcLoop_some_mem rest h
              exact ⟨c, List.mem_cons_of_mem _ hc, hcs, hcl⟩
            · simp only [Option.some.injEq] at h
              refine ⟨c0, List.mem_cons_self _ _, h, ?_⟩
              rw [hlast, hmatch.2.1]
        · obtain ⟨c, hc, hcs, hcl⟩ := sbcLoop_some_mem rest h
          exact ⟨c, List.mem_cons_of_mem _ hc, hcs, hcl⟩

theorem sbcLoop_none_eval {vals : Candidate} {i k : Nat} :
    ∀ cs : List (Scope × Evaluation),
      List.Sorted (fun a b => cmpScope a.1 b.1 ≠ Ordering.gt) cs →
      (∀ c ∈ cs, c.1 ≠ []) →
      sbcLoop vals i k cs = some none →
      ∀ c ∈ cs, c.1.getLast? = some i → 2 ≤ c.1.length →
        c.1.getD (c.1.length - 2) 0 = k → evalC vals c = some true
  | [], _, _, _, c, hc, _, _, _ => by cases hc
  | c0 :: rest, hsor, hne, h, c, hc, hci, hcl, hck => by
    rw [List.sorted_cons] at hsor
    simp only [sbcLoop] at h
    split at h
    · rename_i hlast
      exact absurd (List.getLast?_eq_none_iff.1 hlast)
        (hne c0 (List.mem_cons_self _ _))
    · rename_i lastId hlast
      split at h
      · rename_i hilt
        exfalso
        rcases List.mem_cons.1 hc with rfl | hc
        · rw [hlast] at hci
          cases hci
          omega
        · have hle := cmpScope_last_le (hne c0 (List.mem_cons_self _ _))
            (hne c (List.mem_cons_of_mem _ hc)) (hsor.1 c hc) hlast hci
          omega
      · split at h
        · rename_i hmatch
          split at h
          · cases h
          · rename_i b hev
            split at h
            · rename_i hb
              rcases List.mem_cons.1 hc with rfl | hc
              · rw [hev, hb]
              · exact sbcLoop_none_eval rest hsor.2
                  (fun e hee => hne e (List.mem_cons_of_mem _ hee)) h
                  c hc hci hcl hck
            · cases h
        · rename_i hmatch
          rcases List.mem_cons.1 hc with rfl | hc
          · exfalso
            apply hmatch
            rw [hlast] at hci
            cases hci
            exact ⟨hcl, rfl, hck⟩
          · exact sbcLoop_none_eval rest hsor.2
              (fun e hee => hne e (List.mem_cons_of_mem _ hee)) h
              c hc hci hcl hck

theorem checkLoop_true {p : PropagatedProblem} {i : Nat} {vals : Candidate} :
    ∀ (fuel : Nat) (conf : Finset Nat) (k : Nat) (conf' : Finset Nat),
      checkLoop p i vals fuel conf k = some (conf', true) →
      ∀ k', k ≤ k' → k' < i → sbcLoop vals i k' p.constraints = some none
  | 0, conf, k, conf', h => by
    simp only [checkLoop] at h
    split at h
    · cases h
    · intro k' hk hk'
      omega
  | fuel + 1, conf, k, conf', h => by
    simp only [checkLoop] at h
    split at h
    · rename_i hki
      rcases hsb : sbcLoop vals i k p.constraints with _ | r
      · rw [hsb] at h
        cases h
      · rw [hsb] at h
        rcases r with _ | s
        · intro k' hk hk'
          rcases Nat.eq_or_lt_of_le hk with rfl | hlt
          · exact hsb
          · exact checkLoop_true fuel conf (k + 1) conf' h k' hlt hk'
        · simp only [Option.some.injEq, Prod.mk.injEq] at h
          cases h.2
    · intro k' hk hk'
      omega

theorem checkLoop_conf_lt {p : PropagatedProblem} (W : PPWF p) {i : Nat}
    {vals : Candidate} :
    ∀ (fuel : Nat) (conf : Finset Nat) (k : Nat) (conf' : Finset Nat) (b : Bool),
      checkLoop p i vals fuel conf k = some (conf', b) →
      (∀ x ∈ conf, x < i) → ∀ x ∈ conf', x < i
  | 0, conf, k, conf', b, h, hconf => by
    simp only [checkLoop] at h
    split at h
    · cases h
    · simp only [Option.some.injEq, Prod.mk.injEq] at h
      rw [← h.1]
      exact hconf
  | fuel + 1, conf, k, conf', b, h, hconf => by
    simp only [checkLoop] at h
    split at h
    · rcases hsb : sbcLoop vals i k p.constraints with _ | r
      · rw [hsb] at h
        cases h
      · rw [hsb] at h
        rcases r with _ | s
        · exact checkLoop_conf_lt W fuel conf (k + 1) conf' b h hconf
        · simp only [Option.some.injEq, Prod.mk.injEq] at h
          intro x hx
          rw [← h.1] at hx
          rcases Finset.mem_union.1 hx with hx | hx
          · exact hconf x hx
          · rw [List.mem_toFinset, List.mem_filter] at hx
            obtain ⟨c, hcmem, hcs, hcl⟩ := sbcLoop_some_mem p.constraints hsb
            have hxle : x ≤ i := scope_mem_le_getLast W hcmem hcl x
              (hcs ▸ hx.1)
            have hxne : x ≠ i := by simpa using hx.2
            omega
    · simp only [Option.some.injEq, Prod.mk.injEq] at h
      rw [← h.1]
      exact hconf

theorem satUpTo_mono {p : PropagatedProblem} {cand : Candidate} {m m' : Nat}
    (hm : m' ≤ m) (h : SatUpTo p cand m) : SatUpTo p cand m' :=
  fun c hc l hl hlm => h c hc l hl (by omega)

theorem satUpTo_extend {p : PropagatedProblem} (W : PPWF p)
    (hsor : List.Sorted (fun a b => cmpScope a.1 b.1 ≠ Ordering.gt) p.constraints)
    (hlen2 : ∀ c ∈ p.constraints, 2 ≤ c.1.length)
    {vals0 vals1 : Candidate} {i : Nat}
    (hagree : ∀ j, j ≠ i → vals1.get? j = vals0.get? j)
    (hsat : SatUpTo p vals0 i)
    (hchk : ∀ k', k' < i → sbcLoop vals1 i k' p.constraints = some none) :
    SatUpTo p vals1 (i + 1) := by
  intro c hc l hl hlm
  rcases Nat.lt_or_ge l i with hli | hli
  · rw [evalC_congr c (fun v hv => hagree v (by
      have := scope_mem_le_getLast W hc hl v hv
      omega))]
    exact hsat c hc l hl hli
  · have hleq : l = i := by omega
    subst hleq
    have hlen := hlen2 c hc
    obtain ⟨k0, hk0⟩ := get?_isSome_of_lt (l := c.1) (j := c.1.length - 2)
      (by omega)
    obtain ⟨l0, hl0⟩ := get?_isSome_of_lt (l := c.1) (j := c.1.length - 1)
      (by omega)
    have hll0 : l0 = l := by
      rw [List.getLast?_eq_get?, hl0] at hl
      simpa using hl
    subst hll0
    have hkd : c.1.getD (c.1.length - 2) 0 = k0 := getD_eq_of_get?' hk0
    have hklt : k0 < l0 := by
      have hchain := (List.chain'_iff_get.1 (W.scopes_strict c hc))
        (c.1.length - 2) (by omega)
      have hg1 : c.1.get ⟨c.1.length - 2, by omega⟩ = k0 := by
        have := List.get?_eq_get (l := c.1) (n := c.1.length - 2) (by omega)
        rw [this] at hk0
        simpa using hk0
      have hg2 : c.1.get ⟨c.1.length - 2 + 1, by omega⟩ = l0 := by
        have he : c.1.length - 2 + 1 = c.1.length - 1 := by omega
        have := List.get?_eq_get (l := c.1) (n := c.1.length - 1) (by omega)
        rw [this] at hl0
        simp only [he]
        simpa using hl0
      rw [hg1, hg2] at hchain
      exact hchain
    exact sbcLoop_none_eval p.constraints hsor (W.scopes_ne) 
      (hchk k0 (by omega)) c hc hl hlen hkd

end Constraint

namespace Constraint

theorem selectValCbj?_spec (p : PropagatedProblem) (W : PPWF p) {i : Nat} :
    ∀ (fuel : Nat) (cd : List Int) (conf : Finset Nat) (vals : Candidate)
      (cd1 : List Int) (conf1 : Finset Nat) (vals1 : Candidate)
      (res : Option Int),
      selectValCbj? p i fuel cd conf vals = some (cd1, conf1, vals1, res) →
      i < vals.length → (∀ x ∈ conf, x < i) →
      vals1.length = vals.length ∧
        (∀ j, j ≠ i → vals1.get? j = vals.get? j) ∧
        (∀ x ∈ cd1, x ∈ cd) ∧
        (∀ x ∈ conf1, x < i) ∧
        (∀ a, res = some a → a ∈ cd ∧ vals1.get? i = some (some a) ∧
          ∃ conf0, checkLoop p i vals1 i conf0 0 = some (conf1, true))
  | 0, _, _, _, _, _, _, _, h => by cases h
  | fuel + 1, cd, conf, vals, cd1, conf1, vals1, res, h => by
    intro hi hconf
    simp only [selectValCbj?] at h
    split at h
    · rename_i hlast
      simp only [Option.some.injEq, Prod.mk.injEq] at h
      obtain ⟨rfl, rfl, rfl, rfl⟩ := h
      exact ⟨rfl, fun j _ => rfl, fun x hx => hx, hconf,
        fun a ha => by cases ha⟩
    · rename_i a hlast
      split at h
      · cases h
      · rename_i valsA hset
        obtain ⟨-, rfl⟩ := setIdx?_eq_some.1 hset
        split at h
        · cases h
        · -- the trial value passed every check
          rename_i confA hchk
          simp only [Option.some.injEq, Prod.mk.injEq] at h
          obtain ⟨rfl, rfl, rfl, rfl⟩ := h
          have hmem : a ∈ cd := List.mem_of_getLast?_eq_some hlast
          refine ⟨List.length_set _ _ _, ?_, ?_, ?_, ?_⟩
          · intro j hj
            rw [set_get?, if_neg (by omega)]
          · intro x hx
            exact (List.dropLast_sublist cd).subset hx
          · exact checkLoop_conf_lt W _ conf 0 confA true hchk hconf
          · intro a' ha'
            cases ha'
            refine ⟨hmem, ?_, conf, hchk⟩
            rw [set_get?, if_pos ⟨rfl, hi⟩]
        · -- the trial value failed; pop it and continue
          rename_i confA hchk
          have hconfA : ∀ x ∈ confA, x < i :=
            checkLoop_conf_lt W _ conf 0 confA false hchk hconf
          have ih := selectValCbj?_spec p W fuel cd.dropLast confA
            (vals.set i (some a)) cd1 conf1 vals1 res h
            (by rw [List.length_set]; exact hi) hconfA
          refine ⟨ih.1.trans (List.length_set _ _ _), ?_, ?_, ih.2.2.2.1, ?_⟩
          · intro j hj
            rw [ih.2.1 j hj, set_get?, if_neg (by omega)]
          · intro x hx
            exact (List.dropLast_sublist cd).subset (ih.2.2.1 x hx)
          · intro a' ha'
            obtain ⟨hmemx, hget, hck⟩ := ih.2.2.2.2 a' ha'
            exact ⟨(List.dropLast_sublist cd).subset hmemx, hget, hck⟩

end Constraint

namespace Constraint

/-- Loop invariant of `solve_cbj`'s `while i < n` loop: the index is in
range, the three state vectors keep their lengths, every slot below the
index holds a value of its propagated domain, working domains hold only
domain values, conflict sets only smaller variable indices, and every
constraint fully determined below the index is satisfied. -/
def CbjInv (p : PropagatedProblem) (n : Nat) (st : CbjState) : Prop :=
  st.i ≤ n ∧ st.vals.length = n ∧ st.currDomain.length = n ∧
    st.confSet.length = n ∧
    (∀ j, j < st.i → ∃ v, st.vals.get? j = some (some v) ∧ v ∈ valuesAt p j) ∧
    (∀ j cd, st.currDomain.get? j = some cd → ∀ x ∈ cd, x ∈ valuesAt p j) ∧
    (∀ j cs, st.confSet.get? j = some cs → ∀ x ∈ cs, x < j) ∧
    SatUpTo p st.vals st.i

/-- Soundness payload of a search result: a returned assignment has one
in-domain value per variable and satisfies every stored constraint. -/
def CbjSoundRes (p : PropagatedProblem) (n : Nat) (r : Option (List Int)) :
    Prop :=
  ∀ vals, r = some vals → vals.length = n ∧
    (∀ j, j < n → vals.getD j 0 ∈ valuesAt p j) ∧
    (∀ c ∈ p.constraints, c.2 (c.1.map (fun v => vals.getD v 0)) = true)

theorem final_extract (p : PropagatedProblem) (W : PPWF p) {n : Nat}
    (hn : n = p.domains.length) {cand : Candidate}
    (hlen : cand.length = n)
    (hass : ∀ j, j < n → ∃ v, cand.get? j = some (some v) ∧ v ∈ valuesAt p j)
    (hsat : ∀ c ∈ p.constraints, evalC cand c = some true) :
    CbjSoundRes p n (collectAssign cand) := by
  intro vals hvals
  obtain ⟨hvlen, hvget⟩ := collectAssign_get? hvals
  have hvlen2 : vals.length = n := hvlen.trans hlen
  have hgetD : ∀ j, j < n → ∃ v, cand.get? j = some (some v) ∧
      vals.getD j 0 = v ∧ v ∈ valuesAt p j := by
    intro j hj
    obtain ⟨v, hv, hvm⟩ := hass j hj
    exact ⟨v, hv, getD_eq_of_get?' (hvget j v hv), hvm⟩
  refine ⟨hvlen2, ?_, ?_⟩
  · intro j hj
    obtain ⟨v, -, hvd, hvm⟩ := hgetD j hj
    rw [hvd]
    exact hvm
  · intro c hc
    have hcv : collectVals cand c.1 = some (c.1.map (fun v => vals.getD v 0)) := by
      apply collectVals_eq_map
      intro v hv
      obtain ⟨u, hu, hud, -⟩ := hgetD v
        (by have := W.scopes_lt c hc v hv; omega)
      exact ⟨u, hu, hud⟩
    have := hsat c hc
    rw [evalC, hcv] at this
    simpa using this

theorem cbjStep_sound (p : PropagatedProblem) (W : PPWF p)
    (hsor : List.Sorted (fun a b => cmpScope a.1 b.1 ≠ Ordering.gt) p.constraints)
    (hlen2 : ∀ c ∈ p.constraints, 2 ≤ c.1.length)
    {n : Nat} (hn : n = p.domains.length)
    (st : CbjState) (hinv : CbjInv p n st) :
    ∀ out, cbjStep p n st = some out →
      (∀ st1, out = Sum.inl st1 → CbjInv p n st1) ∧
      (∀ r, out = Sum.inr r → CbjSoundRes p n r) := by
  intro out hstep
  obtain ⟨hile, hvlen, hdlen, hclen, hpref, hdom, hcsets, hsat⟩ := hinv
  simp only [cbjStep] at hstep
  split at hstep
  · rename_i hilt
    split at hstep
    · rename_i cd conf hcd hconf
      split at hstep
      · cases hstep
      · rename_i cd1 conf1 vals1 res hsel
        have hspec := selectValCbj?_spec p W (cd.length + 1) cd conf st.vals
          cd1 conf1 vals1 res hsel (by omega) (hcsets st.i conf hconf)
        obtain ⟨hv1len, hv1get, hcd1, hconf1, hres⟩ := hspec
        split at hstep
        · rename_i cds confs vals2 hcds hconfs hvals2
          obtain ⟨-, rfl⟩ := setIdx?_eq_some.1 hcds
          obtain ⟨-, rfl⟩ := setIdx?_eq_some.1 hconfs
          obtain ⟨-, rfl⟩ := setIdx?_eq_some.1 hvals2
          split at hstep
          · -- the working domain ran out: dead end at the current index
            split at hstep
            · rename_i hne
              split at hstep
              · cases hstep
              · rename_i confm hconfm
                split at hstep
                · cases hstep
                · rename_i confs1 hconfs1
                  obtain ⟨-, rfl⟩ := setIdx?_eq_some.1 hconfs1
                  simp only [Option.some.injEq] at hstep
                  subst hstep
                  have hmlt : conf1.max' hne < st.i :=
                    hconf1 _ (conf1.max'_mem hne)
                  refine ⟨fun st1 h1 => ?_, fun r hr => by cases hr⟩
                  cases h1
                  refine ⟨?_, ?_, ?_, ?_, ?_, ?_, ?_, ?_⟩
                  · simp only
                    omega
                  · simp only [List.length_set]
                    omega
                  · simp only [List.length_set]
                    omega
                  · simp only [List.length_set]
                    omega
                  · intro j hj
                    simp only at hj
                    simp only [set_get?, if_neg (show ¬ (j = st.i ∧
                      st.i < vals1.length) by omega)]
                    rw [hv1get j (by omega)]
                    exact hpref j (by omega)
                  · intro j cdx hcdx x hx
                    simp only [set_get?] at hcdx
                    split at hcdx
                    · rename_i hjx
                      cases hcdx
                      obtain ⟨rfl, -⟩ := hjx
                      exact hdom st.i cd hcd x (hcd1 x hx)
                    · exact hdom j cdx hcdx x hx
                  · intro j csx hcsx x hx
                    simp only [set_get?] at hcsx
                    split at hcsx
                    · rename_i hjx
                      cases hcsx
                      obtain ⟨rfl, -⟩ := hjx
                      rw [Finset.mem_erase, Finset.mem_union] at hx
                      rcases hx.2 with hxm | hxm
                      · rw [set_get?, if_neg (show ¬ (conf1.max' hne = st.i ∧
                          st.i < st.confSet.length) by omega)] at hconfm
                        exact hcsets _ confm hconfm x hxm
                      · have hle := Finset.le_max' conf1 x hxm
                        have hne2 := hx.1
                        omega
                    · split at hcsx
                      · rename_i hjx
                        cases hcsx
                        obtain ⟨rfl, -⟩ := hjx
                        exact hconf1 x hx
                      · exact hcsets j csx hcsx x hx
                  · simp only
                    apply satUpTo_congr W
                      (satUpTo_mono (Nat.le_of_lt hmlt) hsat)
                    intro j hj
                    rw [set_get?, if_neg (by omega), hv1get j (by omega)]
            · -- empty conflict set: the problem is reported unsolvable
              simp only [Option.some.injEq] at hstep
              subst hstep
              refine ⟨fun st1 h1 => ?_, fun r hr => ?_⟩
              · cases h1
              · cases hr
                intro vals hv
                cases hv
          · -- a value was selected for the current variable
            rename_i val
            obtain ⟨hamem, hv1i, conf0, hchk0⟩ := hres val rfl
            have hvals2all : ∀ j,
                (vals1.set st.i (some val)).get? j = vals1.get? j := by
              intro j
              rw [set_get?]
              split
              · rename_i hjx
                obtain ⟨rfl, -⟩ := hjx
                exact hv1i.symm
              · rfl
            have hsat2 : SatUpTo p (vals1.set st.i (some val)) (st.i + 1) := by
              have hsat1 : SatUpTo p vals1 (st.i + 1) := by
                apply satUpTo_extend W hsor hlen2
                · intro j hj
                  exact hv1get j hj
                · exact hsat
                · intro k' hk'
                  exact checkLoop_true st.i conf0 0 conf1 hchk0 k'
                    (Nat.zero_le k') hk'
              apply satUpTo_congr W hsat1
              intro j hj
              exact hvals2all j
            have hass2 : ∀ j, j < st.i + 1 →
                ∃ v, (vals1.set st.i (some val)).get? j = some (some v) ∧
                  v ∈ valuesAt p j := by
              intro j hj
              rcases Nat.lt_or_ge j st.i with hlt | hge
              · obtain ⟨v, hv, hvm⟩ := hpref j hlt
                refine ⟨v, ?_, hvm⟩
                rw [set_get?, if_neg (by omega), hv1get j (by omega)]
                exact hv
              · have hji : j = st.i := by omega
                subst hji
                refine ⟨val, ?_, hdom st.i cd hcd val hamem⟩
                rw [hvals2all, hv1i]
            split at hstep
            · rename_i hin
              simp only [Option.some.injEq] at hstep
              subst hstep
              refine ⟨fun st1 h1 => ?_, fun r hr => ?_⟩
              · cases h1
              cases hr
              apply final_extract p W hn
              · rw [List.length_set]
                omega
              · intro j hj
                exact hass2 j (by omega)
              · intro c hc
                obtain ⟨l, hl, hlm⟩ := getLast?_of_ne_nil (W.scopes_ne c hc)
                have hlb : l < n := by
                  have := W.scopes_lt c hc l hlm
                  omega
                exact hsat2 c hc l hl (by omega)
            · rename_i hin
              split at hstep
              · cases hstep
              · rename_i d hd
                split at hstep
                · rename_i cds1 confs1 hcds1 hconfs1
                  obtain ⟨-, rfl⟩ := setIdx?_eq_some.1 hcds1
                  obtain ⟨-, rfl⟩ := setIdx?_eq_some.1 hconfs1
                  simp only [Option.some.injEq] at hstep
                  subst hstep
                  refine ⟨fun st1 h1 => ?_, fun r hr => by cases hr⟩
                  cases h1
                  refine ⟨?_, ?_, ?_, ?_, ?_, ?_, ?_, ?_⟩
                  · simp only
                    omega
                  · simp only [List.length_set]
                    omega
                  · simp only [List.length_set]
                    omega
                  · simp only [List.length_set]
                    omega
                  · intro j hj
                    exact hass2 j hj
                  · intro j cdx hcdx x hx
                    simp only [set_get?] at hcdx
                    split at hcdx
                    · rename_i hjx
                      cases hcdx
                      obtain ⟨rfl, -⟩ := hjx
                      unfold valuesAt
                      rw [hd]
                      exact hx
                    · split at hcdx
                      · rename_i hjx
                        cases hcdx
                        obtain ⟨rfl, -⟩ := hjx
                        exact hdom st.i cd hcd x (hcd1 x hx)
                      · exact hdom j cdx hcdx x hx
                  · intro j csx hcsx x hx
                    simp only [set_get?] at hcsx
                    split at hcsx
                    · rename_i hjx
                      cases hcsx
                      cases hx
                    · split at hcsx
                      · rename_i hjx
                        cases hcsx
                        obtain ⟨rfl, -⟩ := hjx
                        exact hconf1 x hx
                      · exact hcsets j csx hcsx x hx
                  · exact hsat2
                · cases hstep
        · cases hstep
    · cases hstep
  · rename_i hige
    simp only [Option.some.injEq] at hstep
    subst hstep
    refine ⟨fun st1 h1 => ?_, fun r hr => ?_⟩
    · cases h1
    cases hr
    apply final_extract p W hn hvlen
    · intro j hj
      exact hpref j (by omega)
    · intro c hc
      obtain ⟨l, hl, hlm⟩ := getLast?_of_ne_nil (W.scopes_ne c hc)
      have hlb : l < n := by
        have := W.scopes_lt c hc l hlm
        omega
      exact hsat c hc l hl (by omega)

end Constraint

namespace Constraint

theorem cbjRun_sound (p : PropagatedProblem) (W : PPWF p)
    (hsor : List.Sorted (fun a b => cmpScope a.1 b.1 ≠ Ordering.gt) p.constraints)
    (hlen2 : ∀ c ∈ p.constraints, 2 ≤ c.1.length)
    {n : Nat} (hn : n = p.domains.length) :
    ∀ (fuel : Nat) (st : CbjState) (vals : List Int), CbjInv p n st →
      cbjRun p n fuel st = some (some (some vals)) →
      vals.length = n ∧
        (∀ j, j < n → vals.getD j 0 ∈ valuesAt p j) ∧
        (∀ c ∈ p.constraints, c.2 (c.1.map (fun v => vals.getD v 0)) = true)
  | 0, _, _, _, h => by cases h
  | fuel + 1, st, vals, hinv, h => by
    simp only [cbjRun] at h
    rcases hstep : cbjStep p n st with _ | out
    · rw [hstep] at h
      cases h
    · rw [hstep] at h
      have hsound := cbjStep_sound p W hsor hlen2 hn st hinv out hstep
      rcases out with st1 | r
      · exact cbjRun_sound p W hsor hlen2 hn fuel st1 vals
          (hsound.1 st1 rfl) h
      · simp only [Option.some.injEq] at h
        subst h
        exact hsound.2 (some vals) rfl vals rfl

theorem solve_cbj_sound (p : PropagatedProblem) (W : PPWF p)
    (hsor : List.Sorted (fun a b => cmpScope a.1 b.1 ≠ Ordering.gt) p.constraints)
    (hlen2 : ∀ c ∈ p.constraints, 2 ≤ c.1.length)
    (fuel : Nat) (vals : List Int)
    (h : solve_cbj p fuel = some (some (some vals))) :
    vals.length = p.domains.length ∧
      (∀ j, j < p.domains.length → vals.getD j 0 ∈ valuesAt p j) ∧
      (∀ c ∈ p.constraints, c.2 (c.1.map (fun v => vals.getD v 0)) = true) := by
  have hv : p.vars.length = p.domains.length := by
    rw [W.vars_eq, List.length_range]
  simp only [solve_cbj] at h
  have hinv : CbjInv p p.vars.length
      ⟨0, List.replicate p.vars.length none,
        p.domains.map (fun d => d.values),
        List.replicate p.vars.length ∅⟩ := by
    refine ⟨Nat.zero_le _, List.length_replicate _ _, ?_,
      List.length_replicate _ _, ?_, ?_, ?_, ?_⟩
    · rw [List.length_map]
      exact hv.symm
    · intro j hj
      exact absurd hj (Nat.not_lt_zero j)
    · intro j cdx hcdx x hx
      simp only [List.get?_map] at hcdx
      rcases hd : p.domains.get? j with _ | d
      · rw [hd] at hcdx
        cases hcdx
      · rw [hd] at hcdx
        simp only [Option.map_some', Option.some.injEq] at hcdx
        subst hcdx
        unfold valuesAt
        rw [hd]
        exact hx
    · intro j csx hcsx x hx
      rw [get?_replicate] at hcsx
      split at hcsx
      · cases hcsx
        cases hx
      · cases hcsx
    · intro c hc l hl hlm
      exact absurd hlm (Nat.not_lt_zero l)
  have := cbjRun_sound p W hsor hlen2 hv fuel _ vals hinv h
  rw [hv] at this
  exact this

theorem solve_backtracking_sound (p : PropagatedProblem) (W : PPWF p)
    (fuel : Nat) (vals : List Int)
    (h : solve_backtracking p fuel = some (some (some vals))) :
    vals.length = p.domains.length ∧
      (∀ j, j < p.domains.length → vals.getD j 0 ∈ valuesAt p j) ∧
      (∀ c ∈ p.constraints, c.2 (c.1.map (fun v => vals.getD v 0)) = true) := by
  have hv : p.vars.length = p.domains.length := by
    rw [W.vars_eq, List.length_range]
  simp only [solve_backtracking] at h
  rcases hbr : btRun p fuel (List.replicate p.vars.length none) 0
    with _ | r
  · rw [hbr] at h
    cases h
  · rw [hbr] at h
    rcases r with _ | ⟨c, b⟩
    · cases h
    · rcases b with _ | _
      · cases h
      · simp only [Option.some.injEq] at h
        have hpre : BtPre p (List.replicate p.vars.length none) 0 := by
          refine ⟨by rw [List.length_replicate]; exact hv, Nat.zero_le _,
            ?_, ?_⟩
          · intro j hj
            omega
          · intro j hj hjl
            rw [get?_replicate, if_pos (by omega)]
        have hsat0 : SatUpTo p (List.replicate p.vars.length none) 0 := by
          intro cns hc l hl hlm
          omega
        have hpost := (bt_post p W fuel).1 _ 0 (c, true) hpre hsat0 hbr
        obtain ⟨hclen, -, hass, hcsat⟩ := hpost.2 rfl
        have hclen2 : c.length = p.domains.length := by
          rw [hclen, List.length_replicate]
          exact hv
        have hext := final_extract p W rfl hclen2 hass hcsat
        exact hext vals h

end Constraint

namespace Constraint

/-- Build-time invariants of a Raw problem, exactly as the spec requires
them of builder clients: variables are the dense range the builder
allocates, and every constraint scope is non-empty, strictly ascending
and made of allocated variables. -/
structure RawWF (r : RawProblem) : Prop where
  vars_eq : r.vars = List.range r.domains.length
  scopes_ne : ∀ c ∈ r.constraints, c.scope ≠ []
  scopes_strict : ∀ c ∈ r.constraints, List.Chain' (· < ·) c.scope
  scopes_lt : ∀ c ∈ r.constraints, ∀ v ∈ c.scope, v < r.domains.length

theorem pipeline_bridge (r : RawProblem) (hw : RawWF r) (fuel : Nat)
    (p : PropagatedProblem) (hp : pipeline r fuel = some (some p)) :
    PPWF p ∧
      List.Sorted (fun a b => cmpScope a.1 b.1 ≠ Ordering.gt) p.constraints ∧
      (∀ c ∈ p.constraints, 2 ≤ c.1.length) ∧
      p.domains.length = r.domains.length ∧
      ∀ vals : List Int,
        (∀ j, j < p.domains.length → vals.getD j 0 ∈ valuesAt p j) →
        (∀ c ∈ p.constraints, c.2 (c.1.map (fun v => vals.getD v 0)) = true) →
        ∀ c ∈ r.constraints, evalConstraint vals c = true := by
  simp only [pipeline, NormalizedProblem.constraint_propagation] at hp
  rcases hm : makeArcConsistency (makeNodeConsistency r.normalize_problem) fuel
    with _ | _ | st1
  · rw [hm] at hp
    cases hp
  · rw [hm] at hp
    cases hp
  · rw [hm] at hp
    simp only [Option.some.injEq] at hp
    have hnode := foldl_nodeStep_domSub
      (List.range r.normalize_problem.vars.length) r.normalize_problem
    have hwl := acLoop_domSub fuel (makeNodeConsistency r.normalize_problem)
      (initialWorklist (makeNodeConsistency r.normalize_problem)).reverse st1 hm
    have hUK : UniqueKeys r.normalize_problem.constraints :=
      normFold_uniqueKeys r.constraints [] List.Pairwise.nil
    have hNlen : r.normalize_problem.vars.length = r.domains.length := by
      show r.vars.length = r.domains.length
      rw [hw.vars_eq, List.length_range]
    have hvarsN : r.normalize_problem.vars = List.range r.domains.length :=
      hw.vars_eq
    have hnodelen : (makeNodeConsistency r.normalize_problem).domains.length =
        r.domains.length := by
      show (List.foldl nodeStep r.normalize_problem
        (List.range r.normalize_problem.vars.length)).domains.length =
        r.domains.length
      rw [hnode.1.1]
      rfl
    have hnodevars : (makeNodeConsistency r.normalize_problem).vars =
        r.normalize_problem.vars := by
      show (List.foldl nodeStep r.normalize_problem
        (List.range r.normalize_problem.vars.length)).vars =
        r.normalize_problem.vars
      exact hnode.2
    have hst1len : st1.domains.length = r.domains.length := by
      rw [hwl.1.1]
      exact hnodelen
    have hdlen : p.domains.length = r.domains.length := by
      rw [← hp]
      show ((sortDomains st1).domains).length = r.domains.length
      simp only [sortDomains, List.length_map]
      exact hst1len
    have hpcs : p.constraints = sortConstraints st1.constraints := by
      rw [← hp]
      rfl
    have hpdoms : p.domains = st1.domains.map
        (fun d => { d with values := d.values.insertionSort (· ≤ ·) }) := by
      rw [← hp]
      rfl
    have hpvars : p.vars = r.normalize_problem.vars := by
      rw [← hp]
      show st1.vars = r.normalize_problem.vars
      rw [hwl.2.1]
      exact hnodevars
    have hmemnode : ∀ e ∈ p.constraints,
        e ∈ (makeNodeConsistency r.normalize_problem).constraints := by
      intro e he
      rw [hpcs] at he
      have he1 : e ∈ st1.constraints :=
        (List.perm_insertionSort _ st1.constraints).mem_iff.1 he
      rw [hwl.2.2] at he1
      exact he1
    have horigin : ∀ e ∈ p.constraints,
        ∃ c ∈ r.constraints, c.scope = e.1 := by
      intro e he
      have he2 : e ∈ r.normalize_problem.constraints :=
        (foldl_node_constraints_sublist _ _).subset (hmemnode e he)
      rcases normFold_origin r.constraints [] e he2 with h0 | h0
      · cases h0
      · exact h0
    have hW : PPWF p := by
      refine ⟨?_, ?_, ?_, ?_, ?_⟩
      · rw [hpvars, hvarsN, hdlen]
      · intro e he
        obtain ⟨c, hc, hcs⟩ := horigin e he
        rw [← hcs]
        exact hw.scopes_ne c hc
      · intro e he
        obtain ⟨c, hc, hcs⟩ := horigin e he
        rw [← hcs]
        exact hw.scopes_strict c hc
      · intro e he v hv
        obtain ⟨c, hc, hcs⟩ := horigin e he
        rw [hdlen]
        exact hw.scopes_lt c hc v (by rw [hcs]; exact hv)
      · intro d hd
        rw [hpdoms] at hd
        obtain ⟨d1, -, rfl⟩ := List.mem_map.1 hd
        exact List.sorted_insertionSort _ _
    have hlen2 : ∀ e ∈ p.constraints, 2 ≤ e.1.length := by
      intro e he
      obtain ⟨c, hc, hcs⟩ := horigin e he
      have hne : e.1 ≠ [] := hW.scopes_ne e he
      rcases Nat.lt_or_ge e.1.length 2 with hlt | hge
      · exfalso
        have hone : e.1.length = 1 := by
          have := List.length_pos.2 hne
          omega
        obtain ⟨v, hv⟩ := List.length_eq_one.1 hone
        have hvN : v < r.domains.length := by
          apply hw.scopes_lt c hc
          rw [hcs, hv]
          exact List.mem_singleton_self v
        have hrm := node_removes_unary r.domains.length
          (List.range r.normalize_problem.vars.length) r.normalize_problem
          hvarsN hUK
          (fun w hww => by
            rw [hNlen] at hww
            exact List.mem_range.1 hww)
          v (by rw [hNlen]; exact List.mem_range.2 hvN)
          e (hmemnode e he)
        exact hrm hv
      · exact hge
    refine ⟨hW, ?_, hlen2, hdlen, ?_⟩
    · rw [hpcs]
      exact sortConstraints_sorted st1.constraints
    · intro vals hdomv hsatv c hc
      obtain ⟨E, hLook, himp⟩ := normFold_sat r.constraints []
        List.Pairwise.nil c hc
      by_cases hone : c.scope.length = 1
      · -- unary constraint: applied during node consistency
        obtain ⟨v, hv⟩ := List.length_eq_one.1 hone
        have hvN : v < r.domains.length := by
          apply hw.scopes_lt c hc
          rw [hv]
          exact List.mem_singleton_self v
        have hEd : ∀ x ∈ dvals (makeNodeConsistency r.normalize_problem) v,
            E [x] = true := by
          have := node_unary_prop r.domains.length
            (List.range r.domains.length) r.normalize_problem hvarsN
            (List.nodup_range _) (fun w hww => List.mem_range.1 hww)
            v (List.mem_range.2 hvN) E (by rw [← hv]; exact hLook)
          intro x hx
          apply this x
          show x ∈ dvals ((List.range r.domains.length).foldl nodeStep
            r.normalize_problem) v
          rw [← hNlen]
          exact hx
        have hx : vals.getD v 0 ∈ valuesAt p v := hdomv v (by omega)
        have hxd : vals.getD v 0 ∈
            dvals (makeNodeConsistency r.normalize_problem) v := by
          unfold valuesAt at hx
          rw [hpdoms, List.get?_map] at hx
          rcases h1 : st1.domains.get? v with _ | d1
          · rw [h1] at hx
            cases hx
          · rw [h1] at hx
            simp only [Option.map_some', Option.getD_some] at hx
            have hx1 : vals.getD v 0 ∈ d1.values :=
              (List.perm_insertionSort _ d1.values).mem_iff.1 hx
            obtain ⟨dn, hdn⟩ := get?_isSome_of_lt
              (l := (makeNodeConsistency r.normalize_problem).domains)
              (j := v) (by rw [hnodelen]; omega)
            have hsl := hwl.1.2 v d1 dn h1 hdn
            unfold dvals
            rw [hdn]
            exact hsl.subset hx1
        have hE := hEd _ hxd
        have := himp [vals.getD v 0] hE
        unfold evalConstraint
        rw [hv]
        simpa using this
      · -- the conjoined entry survives to the propagated constraint list
        have hentry : (c.scope, E) ∈ p.constraints := by
          rw [hpcs]
          apply (List.perm_insertionSort _ st1.constraints).mem_iff.2
          rw [hwl.2.2]
          apply foldl_node_keeps _ _ _ (lookupScope_mem hLook) hone
        have := hsatv (c.scope, E) hentry
        exact himp _ this

end Constraint

namespace Constraint

/-- Soundness of both searches relative to a pointwise-conjoined
normalized constraint map: for a well-formed Raw problem (builder
invariants: dense variable ids and non-empty, strictly ascending,
in-range scopes) whose same-scope constraints are merged by conjunction
of their verdicts on the full value tuple, every assignment either
search returns satisfies every raw constraint.  This is the behaviour
the spec prescribes for the normalizer; the real merged closure shares
one iterator between the members (see `mergeShared` below), so this
lemma describes the program only on problems without repeated scopes. -/
theorem searches_sound_of_pointwise_normalization (r : RawProblem)
    (hw : RawWF r) (fuel fuelS : Nat) (p : PropagatedProblem)
    (hp : pipeline r fuel = some (some p)) (vals : List Int)
    (hres : solve_backtracking p fuelS = some (some (some vals)) ∨
      solve_cbj p fuelS = some (some (some vals))) :
    ∀ c ∈ r.constraints, evalConstraint vals c = true := by
  obtain ⟨W, hsor, hlen2, hdlen, hlift⟩ := pipeline_bridge r hw fuel p hp
  rcases hres with h | h
  · obtain ⟨hvlen, hdomv, hsatv⟩ := solve_backtracking_sound p W fuelS vals h
    exact hlift vals hdomv hsatv
  · obtain ⟨hvlen, hdomv, hsatv⟩ := solve_cbj_sound p W hsor hlen2 fuelS vals h
    exact hlift vals hdomv hsatv

end Constraint

namespace Constraint

/-- A Rust `Evaluation` closure modelled together with its iterator
state: the argument is the list of items not yet consumed, the result is
the verdict and the leftover items (the `&mut dyn Iterator` argument of
the closure type). -/
abbrev StreamEval := List Int → Bool × List Int

/-- Rust `u.next()` on the modelled iterator. -/
def nextS : List Int → Option Int × List Int
  | [] => (none, [])
  | a :: t => (some a, t)

/-- Calling a closure the way every engine call site does: build a fresh
iterator over the value tuple, run the closure, keep only the verdict. -/
def applyE (e : StreamEval) (vs : List Int) : Bool := (e vs).1

/-- The closure `normalize_problem` builds for a repeated scope:
`Box::new(move |u| curr_eval(u) && evaluate(u))` runs both members on ONE
shared iterator with short-circuiting, so the second member sees only the
items the first left unconsumed. -/
def mergeShared (curr eval : StreamEval) : StreamEval := fun u =>
  let r := curr u
  if r.1 then eval r.2 else (false, r.2)

/-- The predicate `|u| u.next().is_some()`: consumes one item, true on
every value tuple of its unary scope. -/
def c1S : StreamEval := fun u =>
  let r := nextS u
  (r.1.isSome, r.2)

/-- The predicate `|u| u.next().is_none()`: consumes one item, false on
every value tuple of its unary scope. -/
def c2S : StreamEval := fun u =>
  let r := nextS u
  (r.1.isNone, r.2)

/-- The verdict function of the closure the real normalizer builds when
`c1S` and then `c2S` are added with the same scope. -/
def mergedEval : Evaluation := fun u => applyE (mergeShared c1S c2S) u

/-- The Normalized problem the real code produces from the raw problem
with one variable of domain `{0}` and the two same-scope constraints
`c1S`, `c2S` over `[v0]` (a build accepted by `add_constraint`, and a
grouping the spec explicitly allows): a single map entry holding the
shared-iterator conjunction. -/
def normC2shared : NormalizedProblem := ⟨[0], [⟨0, [0]⟩], [([0], mergedEval)]⟩

/-- The Propagated problem of `normC2shared`. -/
def ppC2shared : PropagatedProblem :=
  ((normC2shared.constraint_propagation 9).getD none).getD ⟨[], [], []⟩

/-- C2.  The claim (and the spec's soundness section) says every
assignment either search returns satisfies every constraint of the
original Raw problem.  It fails on a spec-legal raw problem with two
constraints on the same unary scope: the normalizer's merged closure
feeds both members ONE shared iterator, so after `c1S` consumes the only
item, `c2S` sees an empty iterator and wrongly reports true; the merged
predicate accepts the value `0` that the true conjunction rejects, node
consistency keeps it, both searches return the assignment `[0]`, and
re-evaluating the raw constraint `c2S` on `[0]` in scope order yields
`false`.  The spec requires the folded predicate to hold iff all member
predicates hold; the shared-iterator closure is the slip. -/
theorem C2_merged_constraint_breaks_soundness :
    normC2shared.constraint_propagation 9 = some (some ppC2shared) ∧
      solve_backtracking ppC2shared 9 = some (some (some [0])) ∧
      solve_cbj ppC2shared 9 = some (some (some [0])) ∧
      applyE (mergeShared c1S c2S) [0] = true ∧
      applyE c1S [0] = true ∧ applyE c2S [0] = false :=
  ⟨rfl, rfl, rfl, rfl, rfl, rfl⟩

end Constraint
